import Mathlib

set_option maxHeartbeats 1000000

/-
Verification of the CVRP repository (problem model, route splitting,
validation, and the five search strategies) against its specification.

Conventions of the shallow embedding:
  * Location indices appearing in routes are integers (Python ints).
  * Coordinates are real pairs (Python floats), demands and the capacity
    are integers.
  * Python list indexing is modelled by pyGet?: non-negative indices read
    directly, indices in [-len, 0) wrap around, anything else is none
    (an IndexError).  Functions whose Python original can raise are
    embedded with an Option result where none stands for the exception.
  * The pseudo-random library calls are explicit oracle arguments:
    a shuffle outcome is a permutation passed in, a random.sample outcome
    is the list of chosen positions or cut points, a probabilistic branch
    is a Bool argument.  Theorems quantify over all oracle values.
-/

/-- Python list read `l[i]`: non-negative in-range indices read directly,
negative indices in [-len, 0) wrap, everything else raises (none). -/
def pyGet? {α : Type} (l : List α) (i : ℤ) : Option α :=
  if 0 ≤ i then l.get? i.toNat
  else if -(l.length : ℤ) ≤ i then l.get? (i + l.length).toNat
  else none

/-- The problem model after `CVRP.__init__`: `locations` already carries the
depot at index 0 and `demands` carries the depot demand 0 at index 0. -/
structure CVRP where
  locations : List (ℝ × ℝ)
  demands : List ℤ
  vehicle_capacity : ℤ

/-- `CVRP.__init__(depot, locations, demands, capacity)`:
`self.locations = [depot] + locations`, `self.demands = [0] + demands`. -/
def mkCVRP (depot : ℝ × ℝ) (locations : List (ℝ × ℝ)) (demands : List ℤ)
    (cap : ℤ) : CVRP :=
  { locations := depot :: locations, demands := 0 :: demands,
    vehicle_capacity := cap }

/-- Demand lookup `self.demands[x]` as used inside the route splitter.
The splitter is only ever called with in-range customer indices, where
the default value 0 is never used; theorems about it carry in-range or
demand-bound hypotheses. -/
def demandOf (c : CVRP) (x : ℤ) : ℤ := (pyGet? c.demands x).getD 0

/-- `route[1:-1]`: the routeInterior of a route (customers between the two
depot markers). -/
def routeInterior (r : List ℤ) : List ℤ := (r.drop 1).dropLast

/-- Concatenation of the interiors of all routes of a solution, in route
order (the flattening `[c for route in solution for c in route[1:-1]]`). -/
def interiorsJoin (sol : List (List ℤ)) : List ℤ := (sol.map routeInterior).flatten

/-- Sum of demands of a list of customer indices. -/
def demandSum (c : CVRP) (l : List ℤ) : ℤ := (l.map (demandOf c)).sum

/-- Loop body of `_split_to_routes` (shared verbatim by RandomAlgorithm,
GeneticAlgorithm, SimulatedAnnealing and TabuSearch): state is the list of
closed routes, the currently open route and its running load. -/
def splitAux (c : CVRP) : List ℤ → List (List ℤ) → List ℤ → ℤ → List (List ℤ)
  | [], routes, current, _ =>
    if 1 < current.length then routes ++ [current ++ [0]] else routes
  | cust :: rest, routes, current, load =>
    if c.vehicle_capacity < load + demandOf c cust then
      splitAux c rest (routes ++ [current ++ [0]]) [0, cust] (demandOf c cust)
    else
      splitAux c rest routes (current ++ [cust]) (load + demandOf c cust)

/-- `_split_to_routes(customers)`: greedy capacity bin-packing of a customer
ordering into depot-anchored routes. -/
def splitToRoutes (c : CVRP) (customers : List ℤ) : List (List ℤ) :=
  splitAux c customers [] [0] 0

/-- `list(range(1, len(self.locations)))`: the customer indices. -/
def customersList (c : CVRP) : List ℤ :=
  (List.range (c.locations.length - 1)).map (fun (n : ℕ) => (n : ℤ) + 1)

/-- First loop of `validate_solution` restricted to one route routeInterior:
walks the routeInterior nodes, rejecting (none = Python `return False`)
a repeated, non-positive or out-of-range node, otherwise returning the
extended visited set.  This loop performs no list indexing and cannot
raise. -/
def interiorsCheck (L : ℕ) : List ℤ → List ℤ → Option (List ℤ)
  | visited, [] => some visited
  | visited, n :: rest =>
    if visited.contains n ∨ n ≤ 0 ∨ (L : ℤ) ≤ n then none
    else interiorsCheck L (visited ++ [n]) rest

/-- First loop of `validate_solution` over all routes, threading the
visited set. -/
def allInteriors (L : ℕ) : List ℤ → List (List ℤ) → Option (List ℤ)
  | visited, [] => some visited
  | visited, r :: rest =>
    match interiorsCheck L visited (routeInterior r) with
    | none => none
    | some visited' => allInteriors L visited' rest

/-- `sum(self.demands[node] for node in route)`: none models the
IndexError raised on an out-of-range node. -/
def routeDemand? (dem : List ℤ) : List ℤ → Option ℤ
  | [] => some 0
  | n :: rest =>
    match pyGet? dem n, routeDemand? dem rest with
    | some d, some s => some (d + s)
    | _, _ => none

/-- Capacity loop of `validate_solution`: none models an IndexError while
summing a route demand, some false a capacity violation. -/
def capacityLoop (dem : List ℤ) (cap : ℤ) : List (List ℤ) → Option Bool
  | [] => some true
  | r :: rest =>
    match routeDemand? dem r with
    | none => none
    | some d => if cap < d then some false else capacityLoop dem cap rest

/-- Depot-anchoring loop of `validate_solution`: `route[0]` on an empty
route raises (none). -/
def depotLoop : List (List ℤ) → Option Bool
  | [] => some true
  | r :: rest =>
    match r.head?, r.getLast? with
    | some h, some t => if h ≠ 0 ∨ t ≠ 0 then some false else depotLoop rest
    | _, _ => none

/-- `CVRP.validate_solution(routes)`.  Result: some b is the returned
boolean, none is an uncaught exception (IndexError). -/
def validate_solution (c : CVRP) (routes : List (List ℤ)) : Option Bool :=
  match allInteriors c.locations.length [] routes with
  | none => some false
  | some visited =>
    if visited.length ≠ c.locations.length - 1 then some false
    else
      match capacityLoop c.demands c.vehicle_capacity routes with
      | none => none
      | some false => some false
      | some true => depotLoop routes

/-- `math.sqrt((x2-x1)**2 + (y2-y1)**2)`: Euclidean distance between two
coordinates, with Python floats modelled as reals. -/
noncomputable def euclid (p q : ℝ × ℝ) : ℝ :=
  Real.sqrt ((q.1 - p.1) ^ 2 + (q.2 - p.2) ^ 2)

/-- `self.locations[i]` inside distance computations (in-range in every
reachable call; out-of-range reads default to the origin and are excluded
by hypotheses of the theorems). -/
noncomputable def locAt (c : CVRP) (i : ℤ) : ℝ × ℝ :=
  (pyGet? c.locations i).getD (0, 0)

/-- Entry (i, j) of the matrix built by `_create_distance_matrix`: the
double loop writes `dist` into both m[i][j] and m[j][i] for i < j and
leaves the diagonal at 0.0. -/
noncomputable def distanceMatrix (c : CVRP) (i j : ℤ) : ℝ :=
  if i < j then euclid (locAt c i) (locAt c j)
  else if j < i then euclid (locAt c j) (locAt c i)
  else 0

/-- `CVRP.calculate_route_distance(route)`: sum of consecutive edge
lengths along the route. -/
noncomputable def calculate_route_distance (c : CVRP) : List ℤ → ℝ
  | a :: b :: rest => distanceMatrix c a b + calculate_route_distance c (b :: rest)
  | _ => 0

/-- `_calculate_cost(solution)` / `_calculate_fitness(solution)`: total
distance of all routes (shared by all five strategies). -/
noncomputable def totalCost (c : CVRP) (sol : List (List ℤ)) : ℝ :=
  (sol.map (calculate_route_distance c)).sum

/-- A depot-anchored route whose interior demand fits the capacity. -/
def GoodRoute (c : CVRP) (r : List ℤ) : Prop :=
  ∃ cs, r = 0 :: (cs ++ [0]) ∧ demandSum c cs ≤ c.vehicle_capacity

lemma routeInterior_closed (cs : List ℤ) :
    routeInterior (0 :: (cs ++ [0])) = cs := by
  simp [routeInterior]

lemma interiorsJoin_append (a b : List (List ℤ)) :
    interiorsJoin (a ++ b) = interiorsJoin a ++ interiorsJoin b := by
  simp [interiorsJoin]

lemma splitAux_join (c : CVRP) :
    ∀ customers routes cs load,
      interiorsJoin (splitAux c customers routes (0 :: cs) load)
        = interiorsJoin routes ++ cs ++ customers := by
  intro customers
  induction customers with
  | nil =>
    intro routes cs load
    simp only [splitAux]
    by_cases h : cs = []
    · subst h; simp [interiorsJoin]
    · have : 1 < (0 :: cs).length := by
        cases cs with
        | nil => exact absurd rfl h
        | cons a t => simp [List.length_cons]
      rw [if_pos (by simpa using this)]
      rw [show (0 :: cs) ++ [0] = 0 :: (cs ++ [0]) by simp]
      rw [interiorsJoin_append]
      simp [interiorsJoin, routeInterior_closed]
  | cons cust rest ih =>
    intro routes cs load
    simp only [splitAux]
    by_cases h : c.vehicle_capacity < load + demandOf c cust
    · rw [if_pos h]
      rw [show ([0, cust] : List ℤ) = 0 :: [cust] by rfl]
      rw [ih]
      rw [show (0 :: cs) ++ [0] = 0 :: (cs ++ [0]) by simp]
      rw [interiorsJoin_append]
      simp [interiorsJoin, routeInterior_closed]
    · rw [if_neg h]
      rw [show (0 :: cs) ++ [cust] = 0 :: (cs ++ [cust]) by simp]
      rw [ih]
      simp

/-- The interiors of the split routes concatenate back to the input
ordering. -/
lemma split_interiors (c : CVRP) (l : List ℤ) :
    interiorsJoin (splitToRoutes c l) = l := by
  have h := splitAux_join c l [] [] 0
  simpa [splitToRoutes, interiorsJoin] using h

lemma splitAux_good (c : CVRP) :
    ∀ customers routes cs load,
      (∀ x ∈ customers, demandOf c x ≤ c.vehicle_capacity) →
      load = demandSum c cs →
      (cs ≠ [] → load ≤ c.vehicle_capacity) →
      (∀ r ∈ routes, GoodRoute c r) →
      ∀ r ∈ splitAux c customers routes (0 :: cs) load, GoodRoute c r := by
  intro customers
  induction customers with
  | nil =>
    intro routes cs load _ hload hcap hroutes
    simp only [splitAux]
    by_cases h : cs = []
    · subst h; simp only [List.length_cons, List.length_nil]
      rw [if_neg (by omega)]
      exact hroutes
    · have : 1 < (0 :: cs).length := by
        cases cs with
        | nil => exact absurd rfl h
        | cons a t => simp [List.length_cons]
      rw [if_pos (by simpa using this)]
      intro r hr
      rcases List.mem_append.1 hr with hr | hr
      · exact hroutes r hr
      · rcases List.mem_singleton.1 hr with rfl
        exact ⟨cs, by simp, hload ▸ hcap h⟩
  | cons cust rest ih =>
    intro routes cs load hdem hload hcap hroutes
    simp only [splitAux]
    by_cases h : c.vehicle_capacity < load + demandOf c cust
    · rw [if_pos h]
      have hd : demandOf c cust ≤ c.vehicle_capacity :=
        hdem cust (List.mem_cons_self _ _)
      have hcs : cs ≠ [] := by
        intro hnil
        subst hnil
        simp [demandSum] at hload
        omega
      intro r hr
      refine ih (routes ++ [(0 :: cs) ++ [0]]) [cust] (demandOf c cust)
        (fun x hx => hdem x (List.mem_cons_of_mem _ hx))
        (by simp [demandSum]) (fun _ => hd) ?_ r hr
      intro r' hr'
      rcases List.mem_append.1 hr' with hr' | hr'
      · exact hroutes r' hr'
      · rcases List.mem_singleton.1 hr' with rfl
        exact ⟨cs, by simp, hload ▸ hcap hcs⟩
    · rw [if_neg h]
      intro r hr
      refine ih routes (cs ++ [cust]) (load + demandOf c cust)
        (fun x hx => hdem x (List.mem_cons_of_mem _ hx))
        (by simp [demandSum, hload]) (fun _ => by omega) hroutes r ?_
      simpa using hr

/-- Every route produced by the splitter is depot-anchored and
capacity-feasible, provided each listed customer demand fits the
capacity. -/
lemma split_good (c : CVRP) (l : List ℤ)
    (hdem : ∀ x ∈ l, demandOf c x ≤ c.vehicle_capacity) :
    ∀ r ∈ splitToRoutes c l, GoodRoute c r := by
  refine splitAux_good c l [] [] 0 hdem (by simp [demandSum]) ?_ (by simp)
  intro h; exact absurd rfl h

lemma pyGet?_nonneg {α : Type} (l : List α) (i : ℤ) (h : 0 ≤ i) :
    pyGet? l i = l.get? i.toNat := by
  simp [pyGet?, h]

lemma mem_customersList (c : CVRP) (x : ℤ) :
    x ∈ customersList c ↔ 1 ≤ x ∧ x < (c.locations.length : ℤ) := by
  unfold customersList
  rw [List.mem_map]
  constructor
  · rintro ⟨n, hn, rfl⟩
    rw [List.mem_range] at hn
    omega
  · rintro ⟨h1, h2⟩
    refine ⟨(x - 1).toNat, ?_, ?_⟩
    · rw [List.mem_range]; omega
    · omega

lemma customersList_nodup (c : CVRP) : (customersList c).Nodup := by
  unfold customersList
  refine List.Nodup.map ?_ (List.nodup_range _)
  intro a b hab
  have : (a : ℤ) + 1 = (b : ℤ) + 1 := hab
  omega

lemma customersList_length (c : CVRP) :
    (customersList c).length = c.locations.length - 1 := by
  unfold customersList
  rw [List.length_map, List.length_range]

lemma interiorsCheck_ok (L : ℕ) :
    ∀ nodes visited,
      (∀ x ∈ nodes, 0 < x ∧ x < (L : ℤ)) →
      (visited ++ nodes).Nodup →
      interiorsCheck L visited nodes = some (visited ++ nodes) := by
  intro nodes
  induction nodes with
  | nil => intro visited _ _; simp [interiorsCheck]
  | cons n rest ih =>
    intro visited hr hnd
    have hn := hr n (List.mem_cons_self _ _)
    have hnmem : n ∉ visited := by
      intro hmem
      have hdisj := List.disjoint_of_nodup_append hnd
      exact hdisj hmem (List.mem_cons_self _ _)
    simp only [interiorsCheck]
    rw [if_neg (by
      push_neg
      refine ⟨by simpa using hnmem, by omega, by omega⟩)]
    rw [ih (visited ++ [n]) (fun x hx => hr x (List.mem_cons_of_mem _ hx))
      (by simpa using hnd)]
    simp

lemma allInteriors_ok (L : ℕ) :
    ∀ routes visited,
      (∀ x ∈ interiorsJoin routes, 0 < x ∧ x < (L : ℤ)) →
      (visited ++ interiorsJoin routes).Nodup →
      allInteriors L visited routes = some (visited ++ interiorsJoin routes) := by
  intro routes
  induction routes with
  | nil => intro visited _ _; simp [allInteriors, interiorsJoin]
  | cons r rest ih =>
    intro visited hr hnd
    have hsplit : interiorsJoin (r :: rest) = routeInterior r ++ interiorsJoin rest := by
      simp [interiorsJoin]
    rw [hsplit] at hr hnd
    rw [← List.append_assoc] at hnd
    simp only [allInteriors]
    rw [interiorsCheck_ok L (routeInterior r) visited
      (fun x hx => hr x (List.mem_append_left _ hx))
      (hnd.sublist (List.sublist_append_left _ _))]
    have step := ih (visited ++ routeInterior r)
      (fun x hx => hr x (List.mem_append_right _ hx)) hnd
    rw [show (match some (visited ++ routeInterior r) with
        | none => none
        | some visited' => allInteriors L visited' rest)
        = allInteriors L (visited ++ routeInterior r) rest from rfl]
    rw [step, hsplit, List.append_assoc]

lemma pyGet?_eq_some {α : Type} (l : List α) (n : ℤ) (h0 : 0 ≤ n)
    (hlt : n < (l.length : ℤ)) : ∃ v, pyGet? l n = some v := by
  rw [pyGet?_nonneg l n h0]
  have : n.toNat < l.length := by omega
  exact ⟨l.get ⟨n.toNat, this⟩, List.get?_eq_get this⟩

lemma routeDemand?_total (dem : List ℤ) :
    ∀ r, (∀ n ∈ r, ∃ v, pyGet? dem n = some v) →
      routeDemand? dem r = some ((r.map (fun n => (pyGet? dem n).getD 0)).sum) := by
  intro r
  induction r with
  | nil => intro _; simp [routeDemand?]
  | cons n rest ih =>
    intro h
    obtain ⟨v, hv⟩ := h n (List.mem_cons_self _ _)
    simp only [routeDemand?]
    rw [hv, ih (fun m hm => h m (List.mem_cons_of_mem _ hm))]
    simp [hv]

lemma capacityLoop_ok (dem : List ℤ) (cap : ℤ) :
    ∀ routes, (∀ r ∈ routes, ∃ d, routeDemand? dem r = some d ∧ d ≤ cap) →
      capacityLoop dem cap routes = some true := by
  intro routes
  induction routes with
  | nil => intro _; simp [capacityLoop]
  | cons r rest ih =>
    intro h
    obtain ⟨d, hd, hdc⟩ := h r (List.mem_cons_self _ _)
    have hstep : capacityLoop dem cap (r :: rest)
        = if cap < d then some false else capacityLoop dem cap rest := by
      simp only [capacityLoop]
      rw [hd]
    rw [hstep, if_neg (by omega)]
    exact ih (fun r' hr' => h r' (List.mem_cons_of_mem _ hr'))

lemma depotLoop_ok :
    ∀ routes : List (List ℤ), (∀ r ∈ routes, ∃ cs, r = 0 :: (cs ++ [0])) →
      depotLoop routes = some true := by
  intro routes
  induction routes with
  | nil => intro _; simp [depotLoop]
  | cons r rest ih =>
    intro h
    obtain ⟨cs, rfl⟩ := h _ (List.mem_cons_self _ _)
    have hlast : (0 :: (cs ++ [0]) : List ℤ).getLast? = some 0 := by
      rw [show (0 :: (cs ++ [0]) : List ℤ) = (0 :: cs) ++ [0] by simp]
      exact List.getLast?_concat _
    have hstep : depotLoop ((0 :: (cs ++ [0])) :: rest)
        = if (0 : ℤ) ≠ 0 ∨ (0 : ℤ) ≠ 0 then some false else depotLoop rest := by
      simp only [depotLoop]
      rw [show (0 :: (cs ++ [0]) : List ℤ).head? = some 0 from rfl, hlast]
    rw [hstep, if_neg (by simp)]
    exact ih (fun r' hr' => h r' (List.mem_cons_of_mem _ hr'))

lemma demandOf_depot (dep : ℝ × ℝ) (locs : List (ℝ × ℝ)) (ds : List ℤ)
    (cap : ℤ) : demandOf (mkCVRP dep locs ds cap) 0 = 0 := by
  simp [demandOf, mkCVRP, pyGet?]

/-- A solution made of depot-anchored capacity-feasible routes whose
interiors enumerate the customers exactly once passes validation. -/
lemma validate_of_good (dep : ℝ × ℝ) (locs : List (ℝ × ℝ)) (ds : List ℤ)
    (cap : ℤ) (hlen : ds.length = locs.length) (sol : List (List ℤ))
    (hgood : ∀ r ∈ sol, GoodRoute (mkCVRP dep locs ds cap) r)
    (hperm : (interiorsJoin sol).Perm (customersList (mkCVRP dep locs ds cap))) :
    validate_solution (mkCVRP dep locs ds cap) sol = some true := by
  have hLedge : (mkCVRP dep locs ds cap).locations.length = locs.length + 1 := by
    simp [mkCVRP]
  have hdlen : (mkCVRP dep locs ds cap).demands.length = locs.length + 1 := by
    simp [mkCVRP, hlen]
  have hmemint : ∀ x ∈ interiorsJoin sol,
      0 < x ∧ x < ((mkCVRP dep locs ds cap).locations.length : ℤ) := by
    intro x hx
    have := (mem_customersList _ x).1 (hperm.mem_iff.1 hx)
    omega
  have hnd : interiorsJoin sol |>.Nodup :=
    hperm.nodup_iff.2 (customersList_nodup _)
  have hall := allInteriors_ok (mkCVRP dep locs ds cap).locations.length sol []
    hmemint (by simpa using hnd)
  have hlength : (interiorsJoin sol).length
      = (mkCVRP dep locs ds cap).locations.length - 1 := by
    rw [hperm.length_eq, customersList_length]
  have hint_sub : ∀ r ∈ sol, ∀ x ∈ routeInterior r, x ∈ interiorsJoin sol := by
    intro r hr x hx
    unfold interiorsJoin
    rw [List.mem_flatten]
    exact ⟨routeInterior r, List.mem_map_of_mem _ hr, hx⟩
  unfold validate_solution
  rw [hall]
  dsimp only
  rw [if_neg (by simp [hlength])]
  have hcaploop : capacityLoop (mkCVRP dep locs ds cap).demands
      (mkCVRP dep locs ds cap).vehicle_capacity sol = some true := by
    apply capacityLoop_ok
    intro r hr
    obtain ⟨cs, hshape, hcap⟩ := hgood r hr
    have hnodes : ∀ n ∈ r, ∃ v, pyGet? (mkCVRP dep locs ds cap).demands n = some v := by
      intro n hn
      rw [hshape] at hn
      rcases List.mem_cons.1 hn with rfl | hn
      · exact pyGet?_eq_some _ _ le_rfl (by rw [hdlen]; positivity)
      · rcases List.mem_append.1 hn with hn | hn
        · have hx := hmemint n (hint_sub r hr n (by rw [hshape, routeInterior_closed]; exact hn))
          exact pyGet?_eq_some _ _ (by omega) (by omega)
        · rcases List.mem_singleton.1 hn with rfl
          exact pyGet?_eq_some _ _ le_rfl (by rw [hdlen]; positivity)
    refine ⟨demandSum (mkCVRP dep locs ds cap) r, ?_, ?_⟩
    · rw [routeDemand?_total _ r hnodes]
      rfl
    · rw [hshape]
      have : demandSum (mkCVRP dep locs ds cap) (0 :: (cs ++ [0]))
          = demandSum (mkCVRP dep locs ds cap) cs := by
        simp [demandSum, demandOf_depot]
      rw [this]
      exact hcap
  rw [hcaploop]
  exact depotLoop_ok sol (fun r hr => ⟨(hgood r hr).choose, (hgood r hr).choose_spec.1⟩)

lemma demandOf_le (dep : ℝ × ℝ) (locs : List (ℝ × ℝ)) (ds : List ℤ) (cap : ℤ)
    (hlen : ds.length = locs.length) (hdem : ∀ d ∈ ds, d ≤ cap) (x : ℤ)
    (h1 : 1 ≤ x) (h2 : x < ((mkCVRP dep locs ds cap).locations.length : ℤ)) :
    demandOf (mkCVRP dep locs ds cap) x ≤ cap := by
  have hL : (mkCVRP dep locs ds cap).locations.length = locs.length + 1 := by
    simp [mkCVRP]
  have hx : x.toNat - 1 < ds.length := by omega
  unfold demandOf
  rw [pyGet?_nonneg _ _ (by omega)]
  have hidx : x.toNat = (x.toNat - 1) + 1 := by omega
  rw [show (mkCVRP dep locs ds cap).demands = 0 :: ds from rfl, hidx]
  rw [show (0 :: ds).get? (x.toNat - 1 + 1) = ds.get? (x.toNat - 1) from rfl]
  rw [List.get?_eq_get hx]
  exact hdem _ (ds.get_mem _ _)

/-- Splitting any permutation of the customer list yields a solution that
passes validation, provided each demand fits the capacity. -/
lemma split_validates (dep : ℝ × ℝ) (locs : List (ℝ × ℝ)) (ds : List ℤ)
    (cap : ℤ) (hlen : ds.length = locs.length) (hdem : ∀ d ∈ ds, d ≤ cap)
    (l : List ℤ) (hperm : l.Perm (customersList (mkCVRP dep locs ds cap))) :
    validate_solution (mkCVRP dep locs ds cap)
      (splitToRoutes (mkCVRP dep locs ds cap) l) = some true := by
  apply validate_of_good dep locs ds cap hlen
  · apply split_good
    intro x hx
    have hmem := (mem_customersList _ x).1 (hperm.mem_iff.1 hx)
    exact demandOf_le dep locs ds cap hlen hdem x hmem.1 hmem.2
  · rw [split_interiors]
    exact hperm

lemma capacityLoop_total (dem : List ℤ) (cap : ℤ) :
    ∀ routes, (∀ r ∈ routes, ∃ d, routeDemand? dem r = some d) →
      ∃ b, capacityLoop dem cap routes = some b := by
  intro routes
  induction routes with
  | nil => intro _; exact ⟨true, rfl⟩
  | cons r rest ih =>
    intro h
    obtain ⟨d, hd⟩ := h r (List.mem_cons_self _ _)
    have hstep : capacityLoop dem cap (r :: rest)
        = if cap < d then some false else capacityLoop dem cap rest := by
      simp only [capacityLoop]
      rw [hd]
    by_cases hc : cap < d
    · exact ⟨false, by rw [hstep, if_pos hc]⟩
    · obtain ⟨b, hb⟩ := ih (fun r' hr' => h r' (List.mem_cons_of_mem _ hr'))
      exact ⟨b, by rw [hstep, if_neg hc]; exact hb⟩

lemma depotLoop_total :
    ∀ routes : List (List ℤ), (∀ r ∈ routes, r ≠ []) →
      ∃ b, depotLoop routes = some b := by
  intro routes
  induction routes with
  | nil => intro _; exact ⟨true, rfl⟩
  | cons r rest ih =>
    intro h
    obtain ⟨a, t, rfl⟩ := List.exists_cons_of_ne_nil (h r (List.mem_cons_self _ _))
    obtain ⟨y, hy⟩ := Option.isSome_iff_exists.1
      (List.getLast?_isSome.2 (h _ (List.mem_cons_self _ _)))
    have hstep : depotLoop ((a :: t) :: rest)
        = if a ≠ 0 ∨ y ≠ 0 then some false else depotLoop rest := by
      simp only [depotLoop]
      rw [show (a :: t).head? = some a from rfl, hy]
    by_cases hc : a ≠ 0 ∨ y ≠ 0
    · exact ⟨false, by rw [hstep, if_pos hc]⟩
    · obtain ⟨b, hb⟩ := ih (fun r' hr' => h r' (List.mem_cons_of_mem _ hr'))
      exact ⟨b, by rw [hstep, if_neg hc]; exact hb⟩

lemma closed_route_getLast (cs : List ℤ) :
    (0 :: (cs ++ [0]) : List ℤ).getLast? = some 0 := by
  rw [show (0 :: (cs ++ [0]) : List ℤ) = (0 :: cs) ++ [0] by simp]
  exact List.getLast?_concat _

/-- Claim C2 (amended: the capacity bound additionally needs every listed
customer demand to fit the vehicle capacity): every route returned by
the shared route splitter starts and ends at depot index 0, and its
interior demand is at most the vehicle capacity. -/
theorem split_routes_depot_anchored_capacity_feasible (c : CVRP)
    (customers : List ℤ)
    (hdem : ∀ x ∈ customers, demandOf c x ≤ c.vehicle_capacity) :
    ∀ r ∈ splitToRoutes c customers,
      r.head? = some 0 ∧ r.getLast? = some 0 ∧
        demandSum c (routeInterior r) ≤ c.vehicle_capacity := by
  intro r hr
  obtain ⟨cs, rfl, hcap⟩ := split_good c customers hdem r hr
  exact ⟨rfl, closed_route_getLast cs, by rwa [routeInterior_closed]⟩

theorem split_routes_depot_anchored_capacity_feasible_witness :
    ([0, 1, 0] : List ℤ).head? = some 0 ∧
    ([0, 1, 0] : List ℤ).getLast? = some 0 ∧
    demandSum (mkCVRP (0, 0) [(1, 0)] [1] 1) (routeInterior [0, 1, 0])
      ≤ (mkCVRP (0, 0) [(1, 0)] [1] 1).vehicle_capacity :=
  split_routes_depot_anchored_capacity_feasible
    (mkCVRP (0, 0) [(1, 0)] [1] 1) [1] (by decide) [0, 1, 0] (by decide)

/-- Counterexample to claim C2: with one customer of demand 3 and capacity 2, the
splitter emits route [0, 1, 0] whose interior demand 3 exceeds the
capacity (the output is not capacity-feasible by construction). -/
theorem split_route_exceeding_capacity :
    ([0, 1, 0] : List ℤ) ∈ splitToRoutes (mkCVRP (0, 0) [(1, 0)] [3] 2) [1]
    ∧ (mkCVRP (0, 0) [(1, 0)] [3] 2).vehicle_capacity
        < demandSum (mkCVRP (0, 0) [(1, 0)] [3] 2) (routeInterior [0, 1, 0]) := by
  exact ⟨by decide, by decide⟩

/-- Claim C10: the interiors of the split routes concatenate, in route order, to
exactly the input ordering (each input element is visited once, order
preserved), and splitting is deterministic. -/
theorem split_preserves_ordering_and_deterministic (c : CVRP)
    (customers : List ℤ)
    (h : ∀ x ∈ customers, 1 ≤ x ∧ x < (c.locations.length : ℤ)) :
    interiorsJoin (splitToRoutes c customers) = customers
    ∧ splitToRoutes c customers = splitToRoutes c customers :=
  ⟨split_interiors c customers, rfl⟩

theorem split_preserves_ordering_and_deterministic_witness :
    interiorsJoin (splitToRoutes (mkCVRP (0, 0) [(1, 0), (2, 0)] [1, 1] 2) [2, 1])
      = [2, 1]
    ∧ splitToRoutes (mkCVRP (0, 0) [(1, 0), (2, 0)] [1, 1] 2) [2, 1]
      = splitToRoutes (mkCVRP (0, 0) [(1, 0), (2, 0)] [1, 1] 2) [2, 1] :=
  split_preserves_ordering_and_deterministic
    (mkCVRP (0, 0) [(1, 0), (2, 0)] [1, 1] 2) [2, 1] (by decide)

lemma sqrt_four : Real.sqrt 4 = 2 := by
  rw [show (4 : ℝ) = 2 ^ 2 by norm_num, Real.sqrt_sq (by norm_num : (0:ℝ) ≤ 2)]

/-- Claim C5: on the concrete scenario (depot (0,0), customers (1,0), (2,0),
(0,1), (0,2), demands all 1, capacity 2) the splitter maps the ordering
[1,2,3,4] to routes [0,1,2,0] and [0,3,4,0], whose total distance is 8. -/
theorem split_scenario_routes_and_distance :
    splitToRoutes (mkCVRP (0, 0) [(1, 0), (2, 0), (0, 1), (0, 2)] [1, 1, 1, 1] 2)
      [1, 2, 3, 4] = [[0, 1, 2, 0], [0, 3, 4, 0]]
    ∧ totalCost (mkCVRP (0, 0) [(1, 0), (2, 0), (0, 1), (0, 2)] [1, 1, 1, 1] 2)
      [[0, 1, 2, 0], [0, 3, 4, 0]] = 8 := by
  constructor
  · decide
  · simp only [totalCost, calculate_route_distance, distanceMatrix, locAt, pyGet?,
      mkCVRP, euclid, List.map, List.sum_cons, List.sum_nil,
      show ((2:ℤ).toNat = 2) from rfl, show ((3:ℤ).toNat = 3) from rfl,
      show ((4:ℤ).toNat = 4) from rfl,
      List.getElem_cons_succ, List.getElem_cons_zero]
    norm_num
    rw [sqrt_four]
    norm_num [Real.sqrt_one]

/-- Claim C4 (amended: totality needs every route non-empty with node indices
inside the demand list): validation then returns a boolean and never
raises. -/
theorem validate_total_on_wellformed (c : CVRP) (routes : List (List ℤ))
    (hne : ∀ r ∈ routes, r ≠ [])
    (hnodes : ∀ r ∈ routes, ∀ n ∈ r, 0 ≤ n ∧ n < (c.demands.length : ℤ)) :
    ∃ b, validate_solution c routes = some b := by
  unfold validate_solution
  cases hall : allInteriors c.locations.length [] routes with
  | none => exact ⟨false, rfl⟩
  | some visited =>
    dsimp only
    by_cases hlen : visited.length ≠ c.locations.length - 1
    · exact ⟨false, by rw [if_pos hlen]⟩
    · rw [if_neg hlen]
      obtain ⟨b, hb⟩ := capacityLoop_total c.demands c.vehicle_capacity routes
        (fun r hr => by
          refine ⟨_, routeDemand?_total c.demands r ?_⟩
          intro n hn
          exact pyGet?_eq_some _ _ (hnodes r hr n hn).1 (hnodes r hr n hn).2)
      rw [hb]
      cases b with
      | false => exact ⟨false, rfl⟩
      | true => exact depotLoop_total routes hne

theorem validate_total_on_wellformed_witness :
    ∃ b, validate_solution (mkCVRP (0, 0) [(1, 0)] [1] 1) [[0, 1, 0]] = some b :=
  validate_total_on_wellformed (mkCVRP (0, 0) [(1, 0)] [1] 1) [[0, 1, 0]]
    (by decide) (by decide)

/-- Counterexample to claim C4: a solution containing an empty route makes
`validate_solution` raise an IndexError (route[0] on an empty list), so
validate is not total on arbitrary route lists. -/
theorem validate_raises_on_empty_route :
    validate_solution (mkCVRP (0, 0) [(1, 0)] [1] 1) [[0, 1, 0], []] = none := by
  decide

lemma distanceMatrix_symm (c : CVRP) (i j : ℤ) :
    distanceMatrix c i j = distanceMatrix c j i := by
  unfold distanceMatrix
  rcases lt_trichotomy i j with h | h | h
  · rw [if_pos h, if_pos h, if_neg (by omega)]
  · subst h
    simp [lt_irrefl]
  · rw [if_neg (by omega), if_pos h, if_pos h]

lemma distanceMatrix_diag (c : CVRP) (i : ℤ) : distanceMatrix c i i = 0 := by
  simp [distanceMatrix, lt_irrefl]

lemma crd_append_last (c : CVRP) :
    ∀ (l : List ℤ) (a : ℤ),
      calculate_route_distance c (l ++ [a])
        = calculate_route_distance c l
          + (match l.getLast? with
             | none => 0
             | some b => distanceMatrix c b a) := by
  intro l
  induction l with
  | nil => intro a; simp [calculate_route_distance]
  | cons x t ih =>
    intro a
    cases t with
    | nil =>
      simp [calculate_route_distance]
    | cons y t' =>
      have h1 : calculate_route_distance c ((x :: y :: t') ++ [a])
          = distanceMatrix c x y + calculate_route_distance c ((y :: t') ++ [a]) := rfl
      rw [h1, ih a]
      have h2 : calculate_route_distance c (x :: y :: t')
          = distanceMatrix c x y + calculate_route_distance c (y :: t') := rfl
      rw [h2]
      have h3 : (x :: y :: t').getLast? = (y :: t').getLast? := by
        rw [List.getLast?_cons_cons]
      rw [h3]
      ring

lemma crd_reverse (c : CVRP) :
    ∀ l : List ℤ,
      calculate_route_distance c l.reverse = calculate_route_distance c l := by
  intro l
  induction l with
  | nil => rfl
  | cons x t ih =>
    cases t with
    | nil => rfl
    | cons y t' =>
      rw [List.reverse_cons, crd_append_last, ih]
      have hlast : (y :: t').reverse.getLast? = some y := by
        rw [show (y :: t').reverse = t'.reverse ++ [y] from List.reverse_cons _ _]
        exact List.getLast?_concat _
      rw [hlast]
      rw [show (match some y with
          | none => (0 : ℝ)
          | some b => distanceMatrix c b x) = distanceMatrix c y x from rfl]
      have h2 : calculate_route_distance c (x :: y :: t')
          = distanceMatrix c x y + calculate_route_distance c (y :: t') := rfl
      rw [h2, distanceMatrix_symm c y x]
      ring

/-- Claim C7: the distance matrix is symmetric with zero diagonal, and the
route distance is invariant under reversing the route. -/
theorem distance_matrix_symmetric_and_route_reversal (c : CVRP) (i j : ℤ)
    (route : List ℤ)
    (hi : 0 ≤ i ∧ i < (c.locations.length : ℤ))
    (hj : 0 ≤ j ∧ j < (c.locations.length : ℤ))
    (hroute : ∀ x ∈ route, 0 ≤ x ∧ x < (c.locations.length : ℤ)) :
    distanceMatrix c i j = distanceMatrix c j i
    ∧ distanceMatrix c i i = 0
    ∧ calculate_route_distance c route
        = calculate_route_distance c route.reverse :=
  ⟨distanceMatrix_symm c i j, distanceMatrix_diag c i,
    (crd_reverse c route).symm⟩

theorem distance_matrix_symmetric_and_route_reversal_witness :
    distanceMatrix (mkCVRP (0, 0) [(1, 0), (2, 0)] [1, 1] 2) 0 1
      = distanceMatrix (mkCVRP (0, 0) [(1, 0), (2, 0)] [1, 1] 2) 1 0
    ∧ distanceMatrix (mkCVRP (0, 0) [(1, 0), (2, 0)] [1, 1] 2) 0 0 = 0
    ∧ calculate_route_distance (mkCVRP (0, 0) [(1, 0), (2, 0)] [1, 1] 2)
        [0, 1, 2, 0]
      = calculate_route_distance (mkCVRP (0, 0) [(1, 0), (2, 0)] [1, 1] 2)
        ([0, 1, 2, 0] : List ℤ).reverse :=
  distance_matrix_symmetric_and_route_reversal
    (mkCVRP (0, 0) [(1, 0), (2, 0)] [1, 1] 2) 0 1 [0, 1, 2, 0]
    (by constructor <;> decide) (by constructor <;> decide) (by decide)

/-- All possible outcomes of `random.sample(avail, k)`: k elements chosen
one by one without replacement, in selection order (the Python library
guarantees k distinct positions; this enumerates every possible returned
sequence). -/
def drawSeqs {α : Type} [DecidableEq α] (avail : List α) : ℕ → List (List α)
  | 0 => [[]]
  | k + 1 => avail.flatMap (fun i => (drawSeqs (avail.erase i) k).map (i :: ·))

/-- Python `min(l, key=key)` (also `np.argmin` followed by indexing):
first element achieving the minimal key; none on an empty list
(where Python raises ValueError). -/
noncomputable def minByKey {α β : Type} [LinearOrder β] (key : α → β)
    (l : List α) : Option α :=
  l.foldl (fun acc x =>
    match acc with
    | none => some x
    | some b => if key x < key b then some x else acc) none

lemma minBy_fold_spec {α β : Type} [LinearOrder β] (key : α → β) :
    ∀ (l : List α) (acc : Option α) (res : α),
      l.foldl (fun acc x =>
        match acc with
        | none => some x
        | some b => if key x < key b then some x else acc) acc = some res →
      (res ∈ l ∨ acc = some res)
      ∧ (∀ y ∈ l, key res ≤ key y)
      ∧ (∀ b, acc = some b → key res ≤ key b) := by
  intro l
  induction l with
  | nil =>
    intro acc res h
    simp only [List.foldl_nil] at h
    refine ⟨Or.inr h, by simp, fun b hb => ?_⟩
    rw [hb] at h
    cases h
    exact le_rfl
  | cons x t ih =>
    intro acc res h
    rw [List.foldl_cons] at h
    cases acc with
    | none =>
      obtain ⟨hmem, hmin, hacc⟩ := ih (some x) res h
      refine ⟨?_, ?_, fun b hb => by cases hb⟩
      · rcases hmem with hm | hm
        · exact Or.inl (List.mem_cons_of_mem _ hm)
        · cases hm; exact Or.inl (List.mem_cons_self _ _)
      · intro y hy
        rcases List.mem_cons.1 hy with rfl | hy
        · exact hacc y rfl
        · exact hmin y hy
    | some b =>
      by_cases hxb : key x < key b
      · rw [show (match some b with
            | none => some x
            | some b => if key x < key b then some x else some b) = some x by
            simp [hxb]] at h
        obtain ⟨hmem, hmin, hacc⟩ := ih (some x) res h
        refine ⟨?_, ?_, ?_⟩
        · rcases hmem with hm | hm
          · exact Or.inl (List.mem_cons_of_mem _ hm)
          · cases hm; exact Or.inl (List.mem_cons_self _ _)
        · intro y hy
          rcases List.mem_cons.1 hy with rfl | hy
          · exact hacc y rfl
          · exact hmin y hy
        · intro b' hb'
          cases hb'
          exact le_trans (hacc x rfl) (le_of_lt hxb)
      · rw [show (match some b with
            | none => some x
            | some b => if key x < key b then some x else some b) = some b by
            simp [hxb]] at h
        obtain ⟨hmem, hmin, hacc⟩ := ih (some b) res h
        refine ⟨?_, ?_, ?_⟩
        · rcases hmem with hm | hm
          · exact Or.inl (List.mem_cons_of_mem _ hm)
          · exact Or.inr hm
        · intro y hy
          rcases List.mem_cons.1 hy with rfl | hy
          · exact le_trans (hacc b rfl) (not_lt.1 hxb)
          · exact hmin y hy
        · exact hacc

lemma minByKey_spec {α β : Type} [LinearOrder β] (key : α → β) (l : List α)
    (res : α) (h : minByKey key l = some res) :
    res ∈ l ∧ ∀ y ∈ l, key res ≤ key y := by
  obtain ⟨hmem, hmin, _⟩ := minBy_fold_spec key l none res h
  rcases hmem with hm | hm
  · exact ⟨hm, hmin⟩
  · cases hm

lemma minByKey_isSome {α β : Type} [LinearOrder β] (key : α → β) :
    ∀ (l : List α) (b : α), ∃ r,
      l.foldl (fun acc x =>
        match acc with
        | none => some x
        | some b => if key x < key b then some x else acc) (some b) = some r := by
  intro l
  induction l with
  | nil => intro b; exact ⟨b, rfl⟩
  | cons x t ih =>
    intro b
    rw [List.foldl_cons]
    by_cases hxb : key x < key b
    · obtain ⟨r, hr⟩ := ih x
      exact ⟨r, by rw [show (match some b with
        | none => some x
        | some b => if key x < key b then some x else some b) = some x by
          simp [hxb]]; exact hr⟩
    · obtain ⟨r, hr⟩ := ih b
      exact ⟨r, by rw [show (match some b with
        | none => some x
        | some b => if key x < key b then some x else some b) = some b by
          simp [hxb]]; exact hr⟩

lemma minByKey_ne_nil {α β : Type} [LinearOrder β] (key : α → β) (x : α)
    (t : List α) : ∃ r, minByKey key (x :: t) = some r := by
  unfold minByKey
  rw [List.foldl_cons]
  exact minByKey_isSome key t x

lemma drawSeqs_spec {α : Type} [DecidableEq α] :
    ∀ (k : ℕ) (avail : List α), avail.Nodup →
      ∀ l ∈ drawSeqs avail k,
        l.Nodup ∧ l.length = k ∧ ∀ x ∈ l, x ∈ avail := by
  intro k
  induction k with
  | zero =>
    intro avail _ l hl
    simp only [drawSeqs, List.mem_singleton] at hl
    subst hl
    simp
  | succ k ih =>
    intro avail hav l hl
    simp only [drawSeqs, List.mem_flatMap, List.mem_map] at hl
    obtain ⟨i, hi, l', hl', rfl⟩ := hl
    obtain ⟨hnd, hlen, hsub⟩ := ih (avail.erase i) (hav.erase i) l' hl'
    have hinot : i ∉ l' := by
      intro hmem
      have := (hav.mem_erase_iff.1 (hsub i hmem)).1
      exact this rfl
    refine ⟨List.nodup_cons.2 ⟨hinot, hnd⟩, by simp [hlen], ?_⟩
    intro x hx
    rcases List.mem_cons.1 hx with rfl | hx
    · exact hi
    · exact List.erase_subset _ _ (hsub x hx)

/-- `_tournament_selection`: `random.sample(self.population, K)` followed
by `min(tournament, key=fitness)`.  The sample outcome is the list of
chosen population positions; the entrants are the individuals at those
positions. -/
noncomputable def tournamentSelect (c : CVRP) (pop : List (List (List ℤ)))
    (outcome : List ℕ) : Option (List (List ℤ)) :=
  minByKey (totalCost c) (outcome.filterMap (fun i => pop.get? i))

/-- Counterexample to claim C9: `random.sample` draws without replacement.  With a
two-individual population and tournament size 2, the possible sample
outcomes are exactly the two orderings of the two distinct positions;
the outcome [0, 0] (the same individual twice) is impossible, contrary
to the with-replacement claim. -/
theorem tournament_sampling_no_repetition :
    drawSeqs (List.range 2) 2 = [[0, 1], [1, 0]]
    ∧ [0, 0] ∉ drawSeqs (List.range 2) 2 := by
  exact ⟨by decide, by decide⟩

/-- Claim C9 (amended: sampling is uniform WITHOUT replacement): every possible
tournament consists of K pairwise-distinct population positions, and the
selected winner is an entrant of minimal fitness (total distance). -/
theorem tournament_selection_distinct_entrants_min_fitness
    (c : CVRP) (pop : List (List (List ℤ))) (K : ℕ) (outcome : List ℕ)
    (hout : outcome ∈ drawSeqs (List.range pop.length) K) :
    outcome.Nodup ∧ outcome.length = K
    ∧ (∀ i ∈ outcome, i < pop.length)
    ∧ (∀ w, tournamentSelect c pop outcome = some w →
        w ∈ outcome.filterMap (fun i => pop.get? i)
        ∧ ∀ y ∈ outcome.filterMap (fun i => pop.get? i),
            totalCost c w ≤ totalCost c y) := by
  obtain ⟨hnd, hlen, hsub⟩ :=
    drawSeqs_spec K (List.range pop.length) (List.nodup_range _) outcome hout
  refine ⟨hnd, hlen, fun i hi => List.mem_range.1 (hsub i hi), ?_⟩
  intro w hw
  exact minByKey_spec (totalCost c) _ w hw

theorem tournament_selection_distinct_entrants_min_fitness_witness :
    ([0, 1] : List ℕ).Nodup ∧ ([0, 1] : List ℕ).length = 2
    ∧ (∀ i ∈ ([0, 1] : List ℕ), i < ([[[0, 1, 0]], [[0, 1, 0]]] :
        List (List (List ℤ))).length)
    ∧ (∀ w, tournamentSelect (mkCVRP (0, 0) [(1, 0)] [1] 1)
          [[[0, 1, 0]], [[0, 1, 0]]] [0, 1] = some w →
        w ∈ ([0, 1] : List ℕ).filterMap
            (fun i => ([[[0, 1, 0]], [[0, 1, 0]]] : List (List (List ℤ))).get? i)
        ∧ ∀ y ∈ ([0, 1] : List ℕ).filterMap
            (fun i => ([[[0, 1, 0]], [[0, 1, 0]]] : List (List (List ℤ))).get? i),
            totalCost (mkCVRP (0, 0) [(1, 0)] [1] 1) w
              ≤ totalCost (mkCVRP (0, 0) [(1, 0)] [1] 1) y) :=
  tournament_selection_distinct_entrants_min_fitness
    (mkCVRP (0, 0) [(1, 0)] [1] 1) [[[0, 1, 0]], [[0, 1, 0]]] 2 [0, 1]
    (by decide)

/-- State threaded through the iterations of `TabuSearch.run`.  The tabu
list holds solution signatures; `str` of a nested integer list is
injective, so signatures are modelled by the solutions themselves with
structural equality. -/
structure TabuState where
  current : List (List ℤ)
  currentCost : ℝ
  best : List (List ℤ)
  bestCost : ℝ
  tabu : List (List (List ℤ))

/-- Candidate-selection loop of `TabuSearch.run`: scans the evaluated
neighbors, keeping the first lowest-cost one whose signature is not in
the tabu list (the initial best-candidate cost is infinity, so the first
non-tabu neighbor is always accepted). -/
noncomputable def selectCandidate (tabu : List (List (List ℤ))) :
    List (List (List ℤ) × ℝ) → Option (List (List ℤ) × ℝ) := fun pairs =>
  pairs.foldl (fun acc nc =>
    match acc with
    | none => if nc.1 ∉ tabu then some nc else none
    | some bc => if nc.2 < bc.2 ∧ nc.1 ∉ tabu then some nc else acc) none

/-- One iteration body of `TabuSearch.run` after the neighbors have been
generated: evaluate, select the best non-tabu candidate, update the best
solution whenever the candidate cost improves on it, and then — guarded
by `if best_candidate:`, a truthiness test under which both None and the
empty list are falsy — push the signature, evicting the oldest entry
when the list exceeds the tabu size, and move to the candidate.  With no
candidate (every neighbor tabu) or with the empty solution as candidate,
the current solution, current cost and tabu list stay unchanged.  (The
statistics records are not part of the search state.) -/
noncomputable def tabuStep (c : CVRP) (M : ℕ) (st : TabuState)
    (neighbors : List (List (List ℤ))) : TabuState :=
  match selectCandidate st.tabu (neighbors.map (fun n => (n, totalCost c n))) with
  | none => st
  | some nc =>
    if nc.1 = [] then
      { current := st.current, currentCost := st.currentCost,
        best := if nc.2 < st.bestCost then nc.1 else st.best,
        bestCost := if nc.2 < st.bestCost then nc.2 else st.bestCost,
        tabu := st.tabu }
    else
      { current := nc.1, currentCost := nc.2,
        best := if nc.2 < st.bestCost then nc.1 else st.best,
        bestCost := if nc.2 < st.bestCost then nc.2 else st.bestCost,
        tabu := if M < (st.tabu ++ [nc.1]).length then (st.tabu ++ [nc.1]).drop 1
                else st.tabu ++ [nc.1] }

lemma selectCandidate_fold_spec (tabu : List (List (List ℤ))) :
    ∀ (pairs : List (List (List ℤ) × ℝ)) (acc : Option (List (List ℤ) × ℝ))
      (res : List (List ℤ) × ℝ),
      pairs.foldl (fun acc nc =>
        match acc with
        | none => if nc.1 ∉ tabu then some nc else none
        | some bc => if nc.2 < bc.2 ∧ nc.1 ∉ tabu then some nc else acc)
        acc = some res →
      ((res ∈ pairs ∧ res.1 ∉ tabu) ∨ acc = some res)
      ∧ (∀ p ∈ pairs, p.1 ∉ tabu → res.2 ≤ p.2)
      ∧ (∀ b, acc = some b → res.2 ≤ b.2) := by
  intro pairs
  induction pairs with
  | nil =>
    intro acc res h
    simp only [List.foldl_nil] at h
    refine ⟨Or.inr h, by simp, fun b hb => ?_⟩
    rw [hb] at h
    cases h
    exact le_rfl
  | cons q t ih =>
    intro acc res h
    rw [List.foldl_cons] at h
    cases acc with
    | none =>
      by_cases hq : q.1 ∉ tabu
      · rw [show (match (none : Option (List (List ℤ) × ℝ)) with
            | none => if q.1 ∉ tabu then some q else none
            | some bc => if q.2 < bc.2 ∧ q.1 ∉ tabu then some q else some bc)
            = some q by simp [hq]] at h
        obtain ⟨hmem, hmin, hacc⟩ := ih (some q) res h
        refine ⟨?_, ?_, fun b hb => by cases hb⟩
        · rcases hmem with hm | hm
          · exact Or.inl ⟨List.mem_cons_of_mem _ hm.1, hm.2⟩
          · cases hm; exact Or.inl ⟨List.mem_cons_self _ _, hq⟩
        · intro p hp hpnt
          rcases List.mem_cons.1 hp with rfl | hp
          · exact hacc p rfl
          · exact hmin p hp hpnt
      · rw [show (match (none : Option (List (List ℤ) × ℝ)) with
            | none => if q.1 ∉ tabu then some q else none
            | some bc => if q.2 < bc.2 ∧ q.1 ∉ tabu then some q else some bc)
            = none by simp [hq]] at h
        obtain ⟨hmem, hmin, _⟩ := ih none res h
        refine ⟨?_, ?_, fun b hb => by cases hb⟩
        · rcases hmem with hm | hm
          · exact Or.inl ⟨List.mem_cons_of_mem _ hm.1, hm.2⟩
          · cases hm
        · intro p hp hpnt
          rcases List.mem_cons.1 hp with rfl | hp
          · exact absurd hpnt hq
          · exact hmin p hp hpnt
    | some b =>
      by_cases hcond : q.2 < b.2 ∧ q.1 ∉ tabu
      · rw [show (match some b with
            | none => if q.1 ∉ tabu then some q else none
            | some bc => if q.2 < bc.2 ∧ q.1 ∉ tabu then some q else some bc)
            = some q by simp only []; rw [if_pos hcond]] at h
        obtain ⟨hmem, hmin, hacc⟩ := ih (some q) res h
        refine ⟨?_, ?_, ?_⟩
        · rcases hmem with hm | hm
          · exact Or.inl ⟨List.mem_cons_of_mem _ hm.1, hm.2⟩
          · cases hm; exact Or.inl ⟨List.mem_cons_self _ _, hcond.2⟩
        · intro p hp hpnt
          rcases List.mem_cons.1 hp with rfl | hp
          · exact hacc p rfl
          · exact hmin p hp hpnt
        · intro b' hb'
          cases hb'
          exact le_trans (hacc q rfl) (le_of_lt hcond.1)
      · rw [show (match some b with
            | none => if q.1 ∉ tabu then some q else none
            | some bc => if q.2 < bc.2 ∧ q.1 ∉ tabu then some q else some bc)
            = some b by simp only []; rw [if_neg hcond]] at h
        obtain ⟨hmem, hmin, hacc⟩ := ih (some b) res h
        refine ⟨?_, ?_, ?_⟩
        · rcases hmem with hm | hm
          · exact Or.inl ⟨List.mem_cons_of_mem _ hm.1, hm.2⟩
          · exact Or.inr hm
        · intro p hp hpnt
          rcases List.mem_cons.1 hp with rfl | hp
          · rcases not_and_or.1 hcond with hc | hc
            · exact le_trans (hacc b rfl) (not_lt.1 hc)
            · exact absurd hpnt hc
          · exact hmin p hp hpnt
        · exact hacc

lemma selectCandidate_all_tabu (tabu : List (List (List ℤ))) :
    ∀ (pairs : List (List (List ℤ) × ℝ)),
      (∀ p ∈ pairs, p.1 ∈ tabu) → selectCandidate tabu pairs = none := by
  intro pairs
  induction pairs with
  | nil => intro _; rfl
  | cons q t ih =>
    intro h
    have hq : q.1 ∈ tabu := h q (List.mem_cons_self _ _)
    unfold selectCandidate
    rw [List.foldl_cons]
    rw [show (match (none : Option (List (List ℤ) × ℝ)) with
        | none => if q.1 ∉ tabu then some q else none
        | some bc => if q.2 < bc.2 ∧ q.1 ∉ tabu then some q else some bc)
        = none by simp [hq]]
    exact ih (fun p hp => h p (List.mem_cons_of_mem _ hp))

lemma selectCandidate_fold_some (tabu : List (List (List ℤ))) :
    ∀ (t : List (List (List ℤ) × ℝ)) (b : List (List ℤ) × ℝ),
      ∃ r, t.foldl (fun acc nc =>
        match acc with
        | none => if nc.1 ∉ tabu then some nc else none
        | some bc => if nc.2 < bc.2 ∧ nc.1 ∉ tabu then some nc else acc)
        (some b) = some r := by
  intro t
  induction t with
  | nil => intro b; exact ⟨b, rfl⟩
  | cons q t' ih =>
    intro b
    rw [List.foldl_cons]
    by_cases hc : q.2 < b.2 ∧ q.1 ∉ tabu
    · obtain ⟨r, hr⟩ := ih q
      exact ⟨r, by rw [show (match some b with
        | none => if q.1 ∉ tabu then some q else none
        | some bc => if q.2 < bc.2 ∧ q.1 ∉ tabu then some q else some bc)
        = some q by simp only []; rw [if_pos hc]]; exact hr⟩
    · obtain ⟨r, hr⟩ := ih b
      exact ⟨r, by rw [show (match some b with
        | none => if q.1 ∉ tabu then some q else none
        | some bc => if q.2 < bc.2 ∧ q.1 ∉ tabu then some q else some bc)
        = some b by simp only []; rw [if_neg hc]]; exact hr⟩

lemma selectCandidate_some_of_nontabu (tabu : List (List (List ℤ))) :
    ∀ (pairs : List (List (List ℤ) × ℝ)),
      (∃ p ∈ pairs, p.1 ∉ tabu) →
      ∃ r, selectCandidate tabu pairs = some r := by
  intro pairs
  induction pairs with
  | nil => rintro ⟨p, hp, _⟩; cases hp
  | cons q t ih =>
    rintro ⟨p, hp, hpnt⟩
    unfold selectCandidate
    rw [List.foldl_cons]
    by_cases hq : q.1 ∉ tabu
    · rw [show (match (none : Option (List (List ℤ) × ℝ)) with
        | none => if q.1 ∉ tabu then some q else none
        | some bc => if q.2 < bc.2 ∧ q.1 ∉ tabu then some q else some bc)
        = some q by simp [hq]]
      exact selectCandidate_fold_some tabu t q
    · rw [show (match (none : Option (List (List ℤ) × ℝ)) with
        | none => if q.1 ∉ tabu then some q else none
        | some bc => if q.2 < bc.2 ∧ q.1 ∉ tabu then some q else some bc)
        = none by simp [hq]]
      refine ih ⟨p, ?_, hpnt⟩
      rcases List.mem_cons.1 hp with rfl | hp'
      · exact absurd hpnt hq
      · exact hp'

/-- Claim C8 (amended: the move and the signature push additionally
require the selected candidate to be truthy — `if best_candidate:` in
Python skips both for the empty solution, which arises only on
zero-customer models; see the counterexample): in a TabuSearch
iteration, if some generated neighbor is not tabu then the first
lowest-cost non-tabu neighbor is selected and the best solution/cost are
updated exactly when its cost improves on the best; whenever that
candidate is non-empty it becomes the current solution unconditionally
(even when its cost exceeds the current cost) and its signature is
appended with the oldest entry evicted once the list exceeds the tabu
size M; when the candidate is the empty solution the current solution,
cost and tabu list are unchanged.  If every neighbor is tabu, the whole
state (in particular the current solution and cost) is unchanged. -/
theorem tabu_iteration_behaviour (c : CVRP) (M : ℕ) (st : TabuState)
    (neighbors : List (List (List ℤ))) :
    ((∃ n ∈ neighbors, n ∉ st.tabu) →
      ∃ cand ∈ neighbors, cand ∉ st.tabu
        ∧ (∀ n ∈ neighbors, n ∉ st.tabu → totalCost c cand ≤ totalCost c n)
        ∧ (tabuStep c M st neighbors).best
            = (if totalCost c cand < st.bestCost then cand else st.best)
        ∧ (tabuStep c M st neighbors).bestCost
            = (if totalCost c cand < st.bestCost then totalCost c cand
               else st.bestCost)
        ∧ (cand ≠ [] →
            (tabuStep c M st neighbors).current = cand
            ∧ (tabuStep c M st neighbors).currentCost = totalCost c cand
            ∧ (tabuStep c M st neighbors).tabu
                = (if M < st.tabu.length + 1 then (st.tabu ++ [cand]).drop 1
                   else st.tabu ++ [cand]))
        ∧ (cand = [] →
            (tabuStep c M st neighbors).current = st.current
            ∧ (tabuStep c M st neighbors).currentCost = st.currentCost
            ∧ (tabuStep c M st neighbors).tabu = st.tabu))
    ∧ ((∀ n ∈ neighbors, n ∈ st.tabu) → tabuStep c M st neighbors = st) := by
  constructor
  · rintro ⟨n, hn, hnt⟩
    obtain ⟨res, hres⟩ := selectCandidate_some_of_nontabu st.tabu
      (neighbors.map (fun n => (n, totalCost c n)))
      ⟨(n, totalCost c n), List.mem_map_of_mem _ hn, hnt⟩
    obtain ⟨hmem, hmin, _⟩ := selectCandidate_fold_spec st.tabu
      (neighbors.map (fun n => (n, totalCost c n))) none res hres
    rcases hmem with ⟨hmem, hresnt⟩ | hnone
    · obtain ⟨cand, hcand, heq⟩ := List.mem_map.1 hmem
      have h1 : res.1 = cand := by rw [← heq]
      have h2 : res.2 = totalCost c cand := by rw [← heq]
      have hstep0 : tabuStep c M st neighbors
          = (if res.1 = [] then
              { current := st.current, currentCost := st.currentCost,
                best := if res.2 < st.bestCost then res.1 else st.best,
                bestCost := if res.2 < st.bestCost then res.2 else st.bestCost,
                tabu := st.tabu }
             else
              { current := res.1, currentCost := res.2,
                best := if res.2 < st.bestCost then res.1 else st.best,
                bestCost := if res.2 < st.bestCost then res.2 else st.bestCost,
                tabu := if M < (st.tabu ++ [res.1]).length
                        then (st.tabu ++ [res.1]).drop 1
                        else st.tabu ++ [res.1] } : TabuState) := by
        unfold tabuStep
        rw [hres]
      refine ⟨cand, hcand, ?_, ?_, ?_, ?_, ?_, ?_⟩
      · rw [← heq] at hresnt
        exact hresnt
      · intro n2 hn2 hn2t
        have := hmin (n2, totalCost c n2) (List.mem_map_of_mem _ hn2) hn2t
        rw [← heq] at this
        exact this
      · by_cases hc : res.1 = []
        · rw [hstep0.trans (if_pos hc)]
          show (if res.2 < st.bestCost then res.1 else st.best)
            = (if totalCost c cand < st.bestCost then cand else st.best)
          rw [h1, h2]
        · rw [hstep0.trans (if_neg hc)]
          show (if res.2 < st.bestCost then res.1 else st.best)
            = (if totalCost c cand < st.bestCost then cand else st.best)
          rw [h1, h2]
      · by_cases hc : res.1 = []
        · rw [hstep0.trans (if_pos hc)]
          show (if res.2 < st.bestCost then res.2 else st.bestCost)
            = (if totalCost c cand < st.bestCost then totalCost c cand
               else st.bestCost)
          rw [h2]
        · rw [hstep0.trans (if_neg hc)]
          show (if res.2 < st.bestCost then res.2 else st.bestCost)
            = (if totalCost c cand < st.bestCost then totalCost c cand
               else st.bestCost)
          rw [h2]
      · intro hne
        have hc : ¬ res.1 = [] := by
          rw [h1]
          exact hne
        have hstep := hstep0.trans (if_neg hc)
        refine ⟨?_, ?_, ?_⟩
        · rw [hstep]
          exact h1
        · rw [hstep]
          exact h2
        · rw [hstep]
          show (if M < (st.tabu ++ [res.1]).length
              then (st.tabu ++ [res.1]).drop 1 else st.tabu ++ [res.1])
            = (if M < st.tabu.length + 1 then (st.tabu ++ [cand]).drop 1
               else st.tabu ++ [cand])
          rw [h1]
          simp [List.length_append]
      · intro he
        have hc : res.1 = [] := by
          rw [h1]
          exact he
        have hstep := hstep0.trans (if_pos hc)
        exact ⟨by rw [hstep], by rw [hstep], by rw [hstep]⟩
    · cases hnone
  · intro halltabu
    have hnone := selectCandidate_all_tabu st.tabu
      (neighbors.map (fun n => (n, totalCost c n)))
      (by
        intro p hp
        obtain ⟨n2, hn2, heq⟩ := List.mem_map.1 hp
        rw [← heq]
        exact halltabu n2 hn2)
    simp only [tabuStep, hnone]

theorem tabu_iteration_behaviour_witness :
    ∃ cand ∈ ([[[0, 1, 0]]] : List (List (List ℤ))),
      cand ∉ (TabuState.mk [[0, 1, 0]]
          (totalCost (mkCVRP (0, 0) [(1, 0)] [1] 1) [[0, 1, 0]]) [[0, 1, 0]]
          (totalCost (mkCVRP (0, 0) [(1, 0)] [1] 1) [[0, 1, 0]]) []).tabu
      ∧ (∀ n ∈ ([[[0, 1, 0]]] : List (List (List ℤ))),
          n ∉ (TabuState.mk [[0, 1, 0]]
          (totalCost (mkCVRP (0, 0) [(1, 0)] [1] 1) [[0, 1, 0]]) [[0, 1, 0]]
          (totalCost (mkCVRP (0, 0) [(1, 0)] [1] 1) [[0, 1, 0]]) []).tabu →
          totalCost (mkCVRP (0, 0) [(1, 0)] [1] 1) cand
            ≤ totalCost (mkCVRP (0, 0) [(1, 0)] [1] 1) n)
      ∧ (tabuStep (mkCVRP (0, 0) [(1, 0)] [1] 1) 5 (TabuState.mk [[0, 1, 0]]
          (totalCost (mkCVRP (0, 0) [(1, 0)] [1] 1) [[0, 1, 0]]) [[0, 1, 0]]
          (totalCost (mkCVRP (0, 0) [(1, 0)] [1] 1) [[0, 1, 0]]) [])
          [[[0, 1, 0]]]).best
          = (if totalCost (mkCVRP (0, 0) [(1, 0)] [1] 1) cand
              < (TabuState.mk [[0, 1, 0]]
          (totalCost (mkCVRP (0, 0) [(1, 0)] [1] 1) [[0, 1, 0]]) [[0, 1, 0]]
          (totalCost (mkCVRP (0, 0) [(1, 0)] [1] 1) [[0, 1, 0]]) []).bestCost
             then cand else (TabuState.mk [[0, 1, 0]]
          (totalCost (mkCVRP (0, 0) [(1, 0)] [1] 1) [[0, 1, 0]]) [[0, 1, 0]]
          (totalCost (mkCVRP (0, 0) [(1, 0)] [1] 1) [[0, 1, 0]]) []).best)
      ∧ (tabuStep (mkCVRP (0, 0) [(1, 0)] [1] 1) 5 (TabuState.mk [[0, 1, 0]]
          (totalCost (mkCVRP (0, 0) [(1, 0)] [1] 1) [[0, 1, 0]]) [[0, 1, 0]]
          (totalCost (mkCVRP (0, 0) [(1, 0)] [1] 1) [[0, 1, 0]]) [])
          [[[0, 1, 0]]]).bestCost
          = (if totalCost (mkCVRP (0, 0) [(1, 0)] [1] 1) cand
              < (TabuState.mk [[0, 1, 0]]
          (totalCost (mkCVRP (0, 0) [(1, 0)] [1] 1) [[0, 1, 0]]) [[0, 1, 0]]
          (totalCost (mkCVRP (0, 0) [(1, 0)] [1] 1) [[0, 1, 0]]) []).bestCost
             then totalCost (mkCVRP (0, 0) [(1, 0)] [1] 1) cand
             else (TabuState.mk [[0, 1, 0]]
          (totalCost (mkCVRP (0, 0) [(1, 0)] [1] 1) [[0, 1, 0]]) [[0, 1, 0]]
          (totalCost (mkCVRP (0, 0) [(1, 0)] [1] 1) [[0, 1, 0]]) []).bestCost)
      ∧ (cand ≠ [] →
          (tabuStep (mkCVRP (0, 0) [(1, 0)] [1] 1) 5 (TabuState.mk [[0, 1, 0]]
          (totalCost (mkCVRP (0, 0) [(1, 0)] [1] 1) [[0, 1, 0]]) [[0, 1, 0]]
          (totalCost (mkCVRP (0, 0) [(1, 0)] [1] 1) [[0, 1, 0]]) [])
            [[[0, 1, 0]]]).current = cand
          ∧ (tabuStep (mkCVRP (0, 0) [(1, 0)] [1] 1) 5 (TabuState.mk [[0, 1, 0]]
          (totalCost (mkCVRP (0, 0) [(1, 0)] [1] 1) [[0, 1, 0]]) [[0, 1, 0]]
          (totalCost (mkCVRP (0, 0) [(1, 0)] [1] 1) [[0, 1, 0]]) [])
            [[[0, 1, 0]]]).currentCost
            = totalCost (mkCVRP (0, 0) [(1, 0)] [1] 1) cand
          ∧ (tabuStep (mkCVRP (0, 0) [(1, 0)] [1] 1) 5 (TabuState.mk [[0, 1, 0]]
          (totalCost (mkCVRP (0, 0) [(1, 0)] [1] 1) [[0, 1, 0]]) [[0, 1, 0]]
          (totalCost (mkCVRP (0, 0) [(1, 0)] [1] 1) [[0, 1, 0]]) [])
            [[[0, 1, 0]]]).tabu
            = (if 5 < (TabuState.mk [[0, 1, 0]]
          (totalCost (mkCVRP (0, 0) [(1, 0)] [1] 1) [[0, 1, 0]]) [[0, 1, 0]]
          (totalCost (mkCVRP (0, 0) [(1, 0)] [1] 1) [[0, 1, 0]]) []).tabu.length + 1
               then ((TabuState.mk [[0, 1, 0]]
          (totalCost (mkCVRP (0, 0) [(1, 0)] [1] 1) [[0, 1, 0]]) [[0, 1, 0]]
          (totalCost (mkCVRP (0, 0) [(1, 0)] [1] 1) [[0, 1, 0]]) []).tabu ++ [cand]).drop 1
               else (TabuState.mk [[0, 1, 0]]
          (totalCost (mkCVRP (0, 0) [(1, 0)] [1] 1) [[0, 1, 0]]) [[0, 1, 0]]
          (totalCost (mkCVRP (0, 0) [(1, 0)] [1] 1) [[0, 1, 0]]) []).tabu ++ [cand]))
      ∧ (cand = [] →
          (tabuStep (mkCVRP (0, 0) [(1, 0)] [1] 1) 5 (TabuState.mk [[0, 1, 0]]
          (totalCost (mkCVRP (0, 0) [(1, 0)] [1] 1) [[0, 1, 0]]) [[0, 1, 0]]
          (totalCost (mkCVRP (0, 0) [(1, 0)] [1] 1) [[0, 1, 0]]) [])
            [[[0, 1, 0]]]).current = (TabuState.mk [[0, 1, 0]]
          (totalCost (mkCVRP (0, 0) [(1, 0)] [1] 1) [[0, 1, 0]]) [[0, 1, 0]]
          (totalCost (mkCVRP (0, 0) [(1, 0)] [1] 1) [[0, 1, 0]]) []).current
          ∧ (tabuStep (mkCVRP (0, 0) [(1, 0)] [1] 1) 5 (TabuState.mk [[0, 1, 0]]
          (totalCost (mkCVRP (0, 0) [(1, 0)] [1] 1) [[0, 1, 0]]) [[0, 1, 0]]
          (totalCost (mkCVRP (0, 0) [(1, 0)] [1] 1) [[0, 1, 0]]) [])
            [[[0, 1, 0]]]).currentCost = (TabuState.mk [[0, 1, 0]]
          (totalCost (mkCVRP (0, 0) [(1, 0)] [1] 1) [[0, 1, 0]]) [[0, 1, 0]]
          (totalCost (mkCVRP (0, 0) [(1, 0)] [1] 1) [[0, 1, 0]]) []).currentCost
          ∧ (tabuStep (mkCVRP (0, 0) [(1, 0)] [1] 1) 5 (TabuState.mk [[0, 1, 0]]
          (totalCost (mkCVRP (0, 0) [(1, 0)] [1] 1) [[0, 1, 0]]) [[0, 1, 0]]
          (totalCost (mkCVRP (0, 0) [(1, 0)] [1] 1) [[0, 1, 0]]) [])
            [[[0, 1, 0]]]).tabu = (TabuState.mk [[0, 1, 0]]
          (totalCost (mkCVRP (0, 0) [(1, 0)] [1] 1) [[0, 1, 0]]) [[0, 1, 0]]
          (totalCost (mkCVRP (0, 0) [(1, 0)] [1] 1) [[0, 1, 0]]) []).tabu) :=
  (tabu_iteration_behaviour (mkCVRP (0, 0) [(1, 0)] [1] 1) 5 (TabuState.mk [[0, 1, 0]]
          (totalCost (mkCVRP (0, 0) [(1, 0)] [1] 1) [[0, 1, 0]]) [[0, 1, 0]]
          (totalCost (mkCVRP (0, 0) [(1, 0)] [1] 1) [[0, 1, 0]]) [])
    [[[0, 1, 0]]]).1
    ⟨[[0, 1, 0]], by simp, by simp⟩


/-- Flattening used by `_mutate` and by solution-to-ordering conversions:
all nodes of all routes with the depot markers (zeros) removed. -/
def flattenNonzero (sol : List (List ℤ)) : List ℤ :=
  sol.flatten.filter (fun x => x ≠ 0)

/-- Flattening used by `_ordered_crossover`:
`[node for route in parent for node in route if node != 0][:-1]` — after
the depot markers are removed the slice `[:-1]` ALSO drops the final
customer of the parent. -/
def oxFlat (sol : List (List ℤ)) : List ℤ :=
  (sol.flatten.filter (fun x => x ≠ 0)).dropLast

/-- Fill loop of `_ordered_crossover`: walks parent2's flattened
ordering, skipping values already present in the reserved window
`child[start:end]`, writing the others at the fill pointer which jumps
over the window and stops (break) once it passes the end of the child. -/
def oxFill (s e size : ℕ) : List ℤ → ℕ → List ℤ → List ℤ
  | child, _, [] => child
  | child, ptr, x :: rest =>
    let p := if ptr = s then e else ptr
    if size ≤ p then child
    else if x ∈ (child.drop s).take (e - s) then oxFill s e size child p rest
    else oxFill s e size (child.set p x) (p + 1) rest

/-- The child ordering built by `_ordered_crossover` before re-splitting:
`child = [-1]*size` with `child[start:end] = flat1[start:end]`, then the
fill loop over flat2.  `cut1`, `cut2` are the two sampled cut points
(`start, end = sorted(random.sample(range(size), 2))`). -/
def oxChild (p1 p2 : List (List ℤ)) (cut1 cut2 : ℕ) : List ℤ :=
  oxFill (min cut1 cut2) (max cut1 cut2) (oxFlat p1).length
    ((List.replicate (oxFlat p1).length (-1 : ℤ)).take (min cut1 cut2)
      ++ ((oxFlat p1).drop (min cut1 cut2)).take (max cut1 cut2 - min cut1 cut2)
      ++ (List.replicate (oxFlat p1).length (-1 : ℤ)).drop (max cut1 cut2))
    0 (oxFlat p2)

/-- `_ordered_crossover(parent1, parent2)`: none models the ValueError
raised by `random.sample(range(size), 2)` when size < 2; otherwise the
child ordering is re-split into routes. -/
def orderedCrossover (c : CVRP) (p1 p2 : List (List ℤ)) (cut1 cut2 : ℕ) :
    Option (List (List ℤ)) :=
  if (oxFlat p1).length < 2 then none
  else some (splitToRoutes c (oxChild p1 p2 cut1 cut2))

/-- In-place swap of two positions of a list
(`flat[i], flat[j] = flat[j], flat[i]`); the positions produced by
`random.sample(range(len(flat)), 2)` are always in range, so the
out-of-range guard is never taken on the Python side. -/
def listSwap (l : List ℤ) (i j : ℕ) : List ℤ :=
  if i < l.length ∧ j < l.length then (l.set i (l.getD j 0)).set j (l.getD i 0)
  else l

/-- `_mutate(solution)`: with the sampled mutation decision, flatten the
solution (dropping depots only), swap two sampled positions and
re-split; none models the ValueError of `random.sample(range(n), 2)`
when fewer than two customers exist.  Without mutation the solution is
returned unchanged. -/
def mutate (c : CVRP) (sol : List (List ℤ)) (doMut : Bool) (i j : ℕ) :
    Option (List (List ℤ)) :=
  if doMut then
    if (flattenNonzero sol).length < 2 then none
    else some (splitToRoutes c (listSwap (flattenNonzero sol) i j))
  else some sol

/-- Claim C3 (code bug): on a zero-customer model the splitter yields the
empty solution, which validates and costs nothing — but whenever the
genetic algorithm attempts a crossover (probability crossover_rate) or a
mutation (probability mutation_rate) it calls
`random.sample(range(0), 2)`, which raises ValueError, so
GeneticAlgorithm.run can crash on zero-customer input instead of
returning an empty-route result. -/
theorem genetic_crossover_raises_on_zero_customers :
    splitToRoutes (mkCVRP (0, 0) [] [] 100) [] = []
    ∧ validate_solution (mkCVRP (0, 0) [] [] 100) [] = some true
    ∧ totalCost (mkCVRP (0, 0) [] [] 100) [] = 0
    ∧ (∀ cut1 cut2, orderedCrossover (mkCVRP (0, 0) [] [] 100) [] [] cut1 cut2
        = none)
    ∧ (∀ i j, mutate (mkCVRP (0, 0) [] [] 100) [] true i j = none) :=
  ⟨rfl, by decide, rfl, fun _ _ => rfl, fun _ _ => rfl⟩

/-- Claim C6 (code bug): the crossover flattening applies `[:-1]` after
the depot markers have already been filtered out, so it drops the last
customer of each parent.  On the valid 3-customer parents
[[0,1,2,3,0]] and [[0,3,2,1,0]] with the only possible cut points (0,1),
the child before re-splitting is [1,3]: customer 2 is lost, the child is
not a permutation of 1..3, and the re-split crossover offspring fails
validation. -/
theorem ordered_crossover_drops_a_customer :
    flattenNonzero [[0, 1, 2, 3, 0]] = [1, 2, 3]
    ∧ oxFlat [[0, 1, 2, 3, 0]] = [1, 2]
    ∧ customersList (mkCVRP (0, 0) [(1, 0), (2, 0), (3, 0)] [1, 1, 1] 3)
        = [1, 2, 3]
    ∧ oxChild [[0, 1, 2, 3, 0]] [[0, 3, 2, 1, 0]] 0 1 = [1, 3]
    ∧ ¬ (oxChild [[0, 1, 2, 3, 0]] [[0, 3, 2, 1, 0]] 0 1).Perm
        (customersList (mkCVRP (0, 0) [(1, 0), (2, 0), (3, 0)] [1, 1, 1] 3))
    ∧ orderedCrossover (mkCVRP (0, 0) [(1, 0), (2, 0), (3, 0)] [1, 1, 1] 3)
        [[0, 1, 2, 3, 0]] [[0, 3, 2, 1, 0]] 0 1
        = some [[0, 1, 3, 0]]
    ∧ validate_solution (mkCVRP (0, 0) [(1, 0), (2, 0), (3, 0)] [1, 1, 1] 3)
        [[0, 1, 3, 0]] = some false := by
  refine ⟨by decide, by decide, by decide, by decide, by decide, by decide, by decide⟩

lemma multiset_set (a : ℤ) :
    ∀ (l : List ℤ) (i : ℕ), i < l.length →
      (↑(l.set i a) : Multiset ℤ) + {l.getD i 0} = (↑l : Multiset ℤ) + {a} := by
  intro l
  induction l with
  | nil => intro i h; simp at h
  | cons x t ih =>
    intro i h
    cases i with
    | zero =>
      simp only [List.set_cons_zero, List.getD_cons_zero]
      rw [← Multiset.cons_coe, ← Multiset.cons_coe]
      rw [show ((a ::ₘ ↑t : Multiset ℤ)) + {x} = ↑t + {a} + {x} by
        rw [← Multiset.singleton_add]; abel]
      rw [show ((x ::ₘ ↑t : Multiset ℤ)) + {a} = ↑t + {a} + {x} by
        rw [← Multiset.singleton_add]; abel]
    | succ i =>
      simp only [List.set_cons_succ, List.getD_cons_succ]
      rw [← Multiset.cons_coe, ← Multiset.cons_coe, Multiset.cons_add,
        Multiset.cons_add]
      rw [ih i (by simpa using h)]

lemma getD_set_self (l : List ℤ) (i : ℕ) (b : ℤ) (h : i < l.length) :
    (l.set i b).getD i 0 = b := by
  rw [List.getD_eq_getElem?_getD, List.getElem?_set_self (by simpa using h)]
  rfl

lemma getD_set_ne (l : List ℤ) (i j : ℕ) (b : ℤ) (hij : i ≠ j) :
    (l.set i b).getD j 0 = l.getD j 0 := by
  rw [List.getD_eq_getElem?_getD, List.getElem?_set_ne hij,
    ← List.getD_eq_getElem?_getD]

lemma listSwap_perm (l : List ℤ) (i j : ℕ) : (listSwap l i j).Perm l := by
  unfold listSwap
  by_cases h : i < l.length ∧ j < l.length
  · rw [if_pos h]
    rw [← Multiset.coe_eq_coe]
    have hb : ((l.set i (l.getD j 0)).getD j 0) = l.getD j 0 := by
      by_cases hij : i = j
      · subst hij; exact getD_set_self l i _ h.1
      · exact getD_set_ne l i j _ hij
    have h1 := multiset_set (l.getD i 0) (l.set i (l.getD j 0)) j
      (by simpa using h.2)
    rw [hb] at h1
    have h2 := multiset_set (l.getD j 0) l i h.1
    exact add_right_cancel (h1.trans h2)
  · rw [if_neg h]

/-- `RandomAlgorithm.run`: one uniformly shuffled ordering per iteration
(oracle: the list of shuffle outcomes), split and evaluated; the best
solution is kept under strict improvement, so ties keep the earliest.
Returns the best solution with its cost; none models a run with zero
iterations, whose result preparation raises on an empty cost list.
The statistics series are not part of the returned best solution. -/
noncomputable def randomRun (c : CVRP) (samples : List (List ℤ)) :
    Option (List (List ℤ) × ℝ) :=
  samples.foldl (fun acc l =>
    match acc with
    | none => some (splitToRoutes c l, totalCost c (splitToRoutes c l))
    | some bc =>
      if totalCost c (splitToRoutes c l) < bc.2 then
        some (splitToRoutes c l, totalCost c (splitToRoutes c l))
      else acc) none

/-- State threaded through `SimulatedAnnealing.run`. -/
structure SAState where
  current : List (List ℤ)
  currentCost : ℝ
  best : List (List ℤ)
  bestCost : ℝ

/-- One iteration of `SimulatedAnnealing.run`.  The move oracle carries
the two sampled swap positions and the Boolean outcome of the Metropolis
draw `random.random() < exp(-delta/temp)` (the temperature influences
only that probability, so it is absorbed into the oracle); a negative
delta accepts unconditionally.  On acceptance the best is updated when
the accepted cost improves it. -/
noncomputable def saStep (c : CVRP) (st : SAState) (mv : (ℕ × ℕ) × Bool) :
    SAState :=
  let flat := interiorsJoin st.current
  let newSol := if flat.length < 2 then st.current
                else splitToRoutes c (listSwap flat mv.1.1 mv.1.2)
  let newCost := totalCost c newSol
  if newCost - st.currentCost < 0 ∨ mv.2 = true then
    { current := newSol, currentCost := newCost,
      best := if newCost < st.bestCost then newSol else st.best,
      bestCost := if newCost < st.bestCost then newCost else st.bestCost }
  else st

/-- `SimulatedAnnealing.run`: initial solution from a shuffled ordering,
then one `saStep` per iteration. -/
noncomputable def saRun (c : CVRP) (shuffle : List ℤ)
    (moves : List ((ℕ × ℕ) × Bool)) : SAState :=
  moves.foldl (saStep c)
    { current := splitToRoutes c shuffle,
      currentCost := totalCost c (splitToRoutes c shuffle),
      best := splitToRoutes c shuffle,
      bestCost := totalCost c (splitToRoutes c shuffle) }

/-- `TabuSearch._generate_neighbors`: each attempt swaps two sampled
positions of the flattened interior ordering and re-splits; when fewer
than two interior customers exist every attempt is skipped and the
solution itself is returned as the sole neighbor
(`return neighbors or [solution]`). -/
noncomputable def genNeighbors (c : CVRP) (sol : List (List ℤ))
    (swaps : List (ℕ × ℕ)) : List (List (List ℤ)) :=
  let flat := interiorsJoin sol
  let ns := if flat.length < 2 then ([] : List (List (List ℤ)))
            else swaps.map (fun p => splitToRoutes c (listSwap flat p.1 p.2))
  if ns = [] then [sol] else ns

/-- `TabuSearch.run`: initial solution from a shuffled ordering, empty
tabu list, one `tabuStep` per iteration on freshly generated
neighbors. -/
noncomputable def tabuRun (c : CVRP) (M : ℕ) (shuffle : List ℤ)
    (iters : List (List (ℕ × ℕ))) : TabuState :=
  iters.foldl (fun st swaps => tabuStep c M st (genNeighbors c st.current swaps))
    { current := splitToRoutes c shuffle,
      currentCost := totalCost c (splitToRoutes c shuffle),
      best := splitToRoutes c shuffle,
      bestCost := totalCost c (splitToRoutes c shuffle), tabu := [] }

/-- Counterexample to claim C8: `if best_candidate:` in the Python
iteration body is a truthiness test and the empty solution (an empty
list) is falsy.  On a zero-customer model the neighbor generator
returns the empty solution as the sole neighbor; its signature is
absent from the empty tabu list, so the claim requires it to become the
new current solution with its signature pushed — but the code skips the
push and the move entirely, leaving the tabu list empty. -/
theorem tabu_step_skips_push_on_empty_candidate :
    genNeighbors (mkCVRP (0, 0) [] [] 100) [] [] = [[]]
    ∧ (([] : List (List ℤ)) ∈ ([[]] : List (List (List ℤ))))
    ∧ (([] : List (List ℤ)) ∉ (TabuState.mk []
        (totalCost (mkCVRP (0, 0) [] [] 100) []) []
        (totalCost (mkCVRP (0, 0) [] [] 100) []) []).tabu)
    ∧ (tabuStep (mkCVRP (0, 0) [] [] 100) 5
        (TabuState.mk [] (totalCost (mkCVRP (0, 0) [] [] 100) []) []
          (totalCost (mkCVRP (0, 0) [] [] 100) []) [])
        [[]]).tabu = []
    ∧ (tabuStep (mkCVRP (0, 0) [] [] 100) 5
        (TabuState.mk [] (totalCost (mkCVRP (0, 0) [] [] 100) []) []
          (totalCost (mkCVRP (0, 0) [] [] 100) []) [])
        [[]]).current = [] :=
  ⟨rfl, by simp, by simp, rfl, rfl⟩

/-- Loop of `GreedyAlgorithm._greedy_solution` with explicit fuel: each
iteration routes the nearest feasible unrouted customer, or closes the
current route when none fits; fuel exhaustion (none) models the infinite
loop the Python code enters when some customer can never fit. -/
noncomputable def greedyAux (c : CVRP) :
    ℕ → List ℤ → List (List ℤ) → List ℤ → ℤ → Option (List (List ℤ))
  | 0, _, _, _, _ => none
  | _ + 1, [], routes, current, _ =>
    some (if 1 < current.length then routes ++ [current ++ [0]] else routes)
  | fuel + 1, cust :: rest, routes, current, load =>
    match minByKey (fun x => distanceMatrix c (current.getLastD 0) x)
      ((cust :: rest).filter
        (fun x => demandOf c x + load ≤ c.vehicle_capacity)) with
    | none => greedyAux c fuel (cust :: rest) (routes ++ [current ++ [0]]) [0] 0
    | some next =>
      greedyAux c fuel ((cust :: rest).erase next) routes (current ++ [next])
        (load + demandOf c next)

/-- `GreedyAlgorithm._greedy_solution(...)` for one restart. -/
noncomputable def greedySolution (c : CVRP) (fuel : ℕ) (shuffle : List ℤ) :
    Option (List (List ℤ)) :=
  greedyAux c fuel shuffle [] [0] 0

/-- `GreedyAlgorithm._calculate_cost`: `float('inf')` (top) for an empty
solution, else the total distance. -/
noncomputable def greedyCost (c : CVRP) (sol : List (List ℤ)) : WithTop ℝ :=
  if sol = [] then ⊤ else (totalCost c sol : WithTop ℝ)

/-- `GreedyAlgorithm.run`: one greedy construction per restart (oracle:
the shuffled starting orders), then the restart with first minimal cost
(`np.argmin`).  none: a restart failed to terminate, or there were no
restarts at all (np.argmin raises on an empty array). -/
noncomputable def greedyRun (c : CVRP) (fuel : ℕ)
    (shuffles : List (List ℤ)) : Option (List (List ℤ)) :=
  match shuffles.mapM (greedySolution c fuel) with
  | none => none
  | some sols => minByKey (greedyCost c) sols

/-- Oracle record for one offspring attempt of a GeneticAlgorithm
generation: the two tournament sample outcomes, the crossover decision
with its two cut points, and the mutation decision with its two swap
positions. -/
structure GAttempt where
  t1 : List ℕ
  t2 : List ℕ
  doCross : Bool
  cut1 : ℕ
  cut2 : ℕ
  doMut : Bool
  m1 : ℕ
  m2 : ℕ

/-- One offspring attempt of the generation loop: two tournament
selections, crossover with probability crossover_rate (else a copy of
parent1), then mutation.  none models an uncaught ValueError from
sampling (empty tournament, too-small crossover flattening, or
too-small mutation flattening). -/
noncomputable def gaChild (c : CVRP) (pop : List (List (List ℤ)))
    (a : GAttempt) : Option (List (List ℤ)) :=
  match tournamentSelect c pop a.t1, tournamentSelect c pop a.t2 with
  | some p1, some p2 =>
    (match (if a.doCross then orderedCrossover c p1 p2 a.cut1 a.cut2
            else some p1) with
     | none => none
     | some ch => mutate c ch a.doMut a.m1 a.m2)
  | _, _ => none

/-- Offspring loop of `GeneticAlgorithm.run`: children failing the
validation gate are discarded; accepted children fill the new population
up to the population size P.  none: the attempt oracle was exhausted
before the population filled (the Python loop would keep drawing), or an
attempt raised. -/
noncomputable def offspringLoop (c : CVRP) (P : ℕ)
    (pop : List (List (List ℤ))) :
    List GAttempt → List (List (List ℤ)) → Option (List (List (List ℤ)))
  | [], acc => if P ≤ acc.length then some acc else none
  | a :: rest, acc =>
    if P ≤ acc.length then some acc
    else
      match gaChild c pop a with
      | none => none
      | some ch =>
        if validate_solution c ch = some true then
          offspringLoop c P pop rest (acc ++ [ch])
        else offspringLoop c P pop rest acc

/-- One generation of `GeneticAlgorithm.run`: sort the population
ascending by fitness (stable sort), keep the top E elites, then fill
with gated offspring; tournament selection draws from the sorted
population (the in-place sort happens before the offspring loop). -/
noncomputable def geneticGen (c : CVRP) (P E : ℕ)
    (pop : List (List (List ℤ))) (attempts : List GAttempt) :
    Option (List (List (List ℤ))) :=
  offspringLoop c P
    (pop.mergeSort (fun a b => decide (totalCost c a ≤ totalCost c b)))
    attempts
    ((pop.mergeSort (fun a b => decide (totalCost c a ≤ totalCost c b))).take E)

/-- The population after all generations of `GeneticAlgorithm.run`. -/
noncomputable def geneticPopulation (c : CVRP) (P E : ℕ) :
    List (List GAttempt) → List (List (List ℤ)) →
      Option (List (List (List ℤ)))
  | [], pop => some pop
  | g :: gens, pop =>
    match geneticGen c P E pop g with
    | none => none
    | some pop' => geneticPopulation c P E gens pop'

/-- `GeneticAlgorithm.run`: evolve the initial population (produced by
the validation-gated initializer) through the generations, then return
`min(population, key=fitness)`. -/
noncomputable def geneticRun (c : CVRP) (P E : ℕ)
    (pop₀ : List (List (List ℤ))) (gens : List (List GAttempt)) :
    Option (List (List ℤ)) :=
  match geneticPopulation c P E gens pop₀ with
  | none => none
  | some finalPop => minByKey (totalCost c) finalPop

/-- Solutions obtainable by splitting some permutation of the customer
list: the shape of every solution that RandomSearch, SimulatedAnnealing
and TabuSearch ever hold. -/
def PermSplit (c : CVRP) (sol : List (List ℤ)) : Prop :=
  ∃ l, l.Perm (customersList c) ∧ sol = splitToRoutes c l

lemma permSplit_swap (c : CVRP) (sol : List (List ℤ)) (h : PermSplit c sol)
    (i j : ℕ) :
    PermSplit c (splitToRoutes c (listSwap (interiorsJoin sol) i j)) := by
  obtain ⟨l, hl, rfl⟩ := h
  rw [split_interiors]
  exact ⟨listSwap l i j, (listSwap_perm l i j).trans hl, rfl⟩

lemma randomRun_fold_mem (c : CVRP) :
    ∀ (samples : List (List ℤ)) (acc : Option (List (List ℤ) × ℝ))
      (res : List (List ℤ) × ℝ),
      samples.foldl (fun acc l =>
        match acc with
        | none => some (splitToRoutes c l, totalCost c (splitToRoutes c l))
        | some bc =>
          if totalCost c (splitToRoutes c l) < bc.2 then
            some (splitToRoutes c l, totalCost c (splitToRoutes c l))
          else acc) acc = some res →
      (∃ s ∈ samples, res.1 = splitToRoutes c s) ∨ acc = some res := by
  intro samples
  induction samples with
  | nil =>
    intro acc res h
    simp only [List.foldl_nil] at h
    exact Or.inr h
  | cons l t ih =>
    intro acc res h
    rw [List.foldl_cons] at h
    cases acc with
    | none =>
      rcases ih _ res h with ⟨s, hs, hres⟩ | hacc
      · exact Or.inl ⟨s, List.mem_cons_of_mem _ hs, hres⟩
      · rw [show (match (none : Option (List (List ℤ) × ℝ)) with
          | none => some (splitToRoutes c l, totalCost c (splitToRoutes c l))
          | some bc =>
            if totalCost c (splitToRoutes c l) < bc.2 then
              some (splitToRoutes c l, totalCost c (splitToRoutes c l))
            else some bc)
          = some (splitToRoutes c l, totalCost c (splitToRoutes c l)) from rfl]
          at hacc
        cases hacc
        exact Or.inl ⟨l, List.mem_cons_self _ _, rfl⟩
    | some bc =>
      rcases ih _ res h with ⟨s, hs, hres⟩ | hacc
      · exact Or.inl ⟨s, List.mem_cons_of_mem _ hs, hres⟩
      · by_cases hlt : totalCost c (splitToRoutes c l) < bc.2
        · rw [show (match some bc with
            | none => some (splitToRoutes c l, totalCost c (splitToRoutes c l))
            | some bc =>
              if totalCost c (splitToRoutes c l) < bc.2 then
                some (splitToRoutes c l, totalCost c (splitToRoutes c l))
              else some bc)
            = some (splitToRoutes c l, totalCost c (splitToRoutes c l)) by
              simp only []; rw [if_pos hlt]] at hacc
          cases hacc
          exact Or.inl ⟨l, List.mem_cons_self _ _, rfl⟩
        · rw [show (match some bc with
            | none => some (splitToRoutes c l, totalCost c (splitToRoutes c l))
            | some bc =>
              if totalCost c (splitToRoutes c l) < bc.2 then
                some (splitToRoutes c l, totalCost c (splitToRoutes c l))
              else some bc) = some bc by simp only []; rw [if_neg hlt]] at hacc
          exact Or.inr hacc

lemma randomRun_permSplit (c : CVRP) (samples : List (List ℤ))
    (hper : ∀ s ∈ samples, s.Perm (customersList c))
    (res : List (List ℤ) × ℝ) (h : randomRun c samples = some res) :
    PermSplit c res.1 := by
  rcases randomRun_fold_mem c samples none res h with ⟨s, hs, hres⟩ | hacc
  · exact ⟨s, hper s hs, hres⟩
  · cases hacc

lemma saStep_permSplit (c : CVRP) (st : SAState) (mv : (ℕ × ℕ) × Bool)
    (hc : PermSplit c st.current) (hb : PermSplit c st.best) :
    PermSplit c (saStep c st mv).current
    ∧ PermSplit c (saStep c st mv).best := by
  simp only [saStep]
  by_cases h2 : (interiorsJoin st.current).length < 2
  · simp only [if_pos h2]
    split_ifs with ha hbest
    · exact ⟨hc, hc⟩
    · exact ⟨hc, hb⟩
    · exact ⟨hc, hb⟩
  · simp only [if_neg h2]
    have hs : PermSplit c
        (splitToRoutes c (listSwap (interiorsJoin st.current) mv.1.1 mv.1.2)) :=
      permSplit_swap c st.current hc mv.1.1 mv.1.2
    split_ifs with ha hbest
    · exact ⟨hs, hs⟩
    · exact ⟨hs, hb⟩
    · exact ⟨hc, hb⟩

lemma saRun_permSplit (c : CVRP) (shuffle : List ℤ)
    (moves : List ((ℕ × ℕ) × Bool))
    (hsh : shuffle.Perm (customersList c)) :
    PermSplit c (saRun c shuffle moves).current
    ∧ PermSplit c (saRun c shuffle moves).best := by
  have hgen : ∀ (ms : List ((ℕ × ℕ) × Bool)) (st : SAState),
      PermSplit c st.current → PermSplit c st.best →
      PermSplit c (ms.foldl (saStep c) st).current
      ∧ PermSplit c (ms.foldl (saStep c) st).best := by
    intro ms
    induction ms with
    | nil => intro st hc hb; exact ⟨hc, hb⟩
    | cons mv t ih =>
      intro st hc hb
      rw [List.foldl_cons]
      obtain ⟨hc', hb'⟩ := saStep_permSplit c st mv hc hb
      exact ih _ hc' hb'
  exact hgen moves _ ⟨shuffle, hsh, rfl⟩ ⟨shuffle, hsh, rfl⟩

lemma genNeighbors_permSplit (c : CVRP) (sol : List (List ℤ))
    (swaps : List (ℕ × ℕ)) (h : PermSplit c sol) :
    ∀ n ∈ genNeighbors c sol swaps, PermSplit c n := by
  intro n hn
  simp only [genNeighbors] at hn
  by_cases h2 : (interiorsJoin sol).length < 2
  · rw [if_pos h2] at hn
    simp only [if_pos rfl] at hn
    rcases List.mem_singleton.1 hn with rfl
    exact h
  · rw [if_neg h2] at hn
    by_cases hsw : swaps = []
    · subst hsw
      simp only [List.map_nil, if_pos rfl] at hn
      rcases List.mem_singleton.1 hn with rfl
      exact h
    · rw [if_neg (by simpa using hsw)] at hn
      obtain ⟨p, _, rfl⟩ := List.mem_map.1 hn
      exact permSplit_swap c sol h p.1 p.2

lemma tabuStep_cases (c : CVRP) (M : ℕ) (st : TabuState)
    (ns : List (List (List ℤ))) :
    ((tabuStep c M st ns).current = st.current
      ∨ (tabuStep c M st ns).current ∈ ns)
    ∧ ((tabuStep c M st ns).best = st.best
      ∨ (tabuStep c M st ns).best ∈ ns) := by
  cases hsel : selectCandidate st.tabu (ns.map fun n => (n, totalCost c n)) with
  | none =>
    have hstep : tabuStep c M st ns = st := by
      unfold tabuStep
      rw [hsel]
    rw [hstep]
    exact ⟨Or.inl rfl, Or.inl rfl⟩
  | some nc =>
    have hmem : nc.1 ∈ ns := by
      obtain ⟨hm, _, _⟩ := selectCandidate_fold_spec st.tabu _ none nc hsel
      rcases hm with ⟨hm, _⟩ | h0
      · obtain ⟨n, hn, heq⟩ := List.mem_map.1 hm
        have hfst : n = nc.1 := congrArg Prod.fst heq
        rwa [← hfst]
      · cases h0
    have hstep0 : tabuStep c M st ns
        = (if nc.1 = [] then
            { current := st.current, currentCost := st.currentCost,
              best := if nc.2 < st.bestCost then nc.1 else st.best,
              bestCost := if nc.2 < st.bestCost then nc.2 else st.bestCost,
              tabu := st.tabu }
           else
            { current := nc.1, currentCost := nc.2,
              best := if nc.2 < st.bestCost then nc.1 else st.best,
              bestCost := if nc.2 < st.bestCost then nc.2 else st.bestCost,
              tabu := if M < (st.tabu ++ [nc.1]).length
                      then (st.tabu ++ [nc.1]).drop 1
                      else st.tabu ++ [nc.1] } : TabuState) := by
      unfold tabuStep
      rw [hsel]
    by_cases hc : nc.1 = []
    · have hstep := hstep0.trans (if_pos hc)
      constructor
      · left
        rw [hstep]
      · by_cases himp : nc.2 < st.bestCost
        · right
          rw [hstep]
          show (if nc.2 < st.bestCost then nc.1 else st.best) ∈ ns
          rw [if_pos himp]
          exact hmem
        · left
          rw [hstep]
          show (if nc.2 < st.bestCost then nc.1 else st.best) = st.best
          rw [if_neg himp]
    · have hstep := hstep0.trans (if_neg hc)
      constructor
      · right
        rw [hstep]
        exact hmem
      · by_cases himp : nc.2 < st.bestCost
        · right
          rw [hstep]
          show (if nc.2 < st.bestCost then nc.1 else st.best) ∈ ns
          rw [if_pos himp]
          exact hmem
        · left
          rw [hstep]
          show (if nc.2 < st.bestCost then nc.1 else st.best) = st.best
          rw [if_neg himp]

lemma tabuRun_permSplit (c : CVRP) (M : ℕ) (shuffle : List ℤ)
    (iters : List (List (ℕ × ℕ)))
    (hsh : shuffle.Perm (customersList c)) :
    PermSplit c (tabuRun c M shuffle iters).current
    ∧ PermSplit c (tabuRun c M shuffle iters).best := by
  have hgen : ∀ (its : List (List (ℕ × ℕ))) (st : TabuState),
      PermSplit c st.current → PermSplit c st.best →
      PermSplit c (its.foldl
        (fun st swaps => tabuStep c M st (genNeighbors c st.current swaps))
        st).current
      ∧ PermSplit c (its.foldl
        (fun st swaps => tabuStep c M st (genNeighbors c st.current swaps))
        st).best := by
    intro its
    induction its with
    | nil => intro st hc hb; exact ⟨hc, hb⟩
    | cons swaps t ih =>
      intro st hc hb
      rw [List.foldl_cons]
      have hns := genNeighbors_permSplit c st.current swaps hc
      have hc2 : PermSplit c
          (tabuStep c M st (genNeighbors c st.current swaps)).current := by
        rcases (tabuStep_cases c M st (genNeighbors c st.current swaps)).1 with
          hcur | hcur
        · rw [hcur]; exact hc
        · exact hns _ hcur
      have hb2 : PermSplit c
          (tabuStep c M st (genNeighbors c st.current swaps)).best := by
        rcases (tabuStep_cases c M st (genNeighbors c st.current swaps)).2 with
          hbest | hbest
        · rw [hbest]; exact hb
        · exact hns _ hbest
      exact ih (tabuStep c M st (genNeighbors c st.current swaps)) hc2 hb2
  exact hgen iters
    { current := splitToRoutes c shuffle,
      currentCost := totalCost c (splitToRoutes c shuffle),
      best := splitToRoutes c shuffle,
      bestCost := totalCost c (splitToRoutes c shuffle), tabu := [] }
    ⟨shuffle, hsh, rfl⟩ ⟨shuffle, hsh, rfl⟩

lemma demandOf_le_of_mem (dep : ℝ × ℝ) (locs : List (ℝ × ℝ)) (ds : List ℤ)
    (cap : ℤ) (hlen : ds.length = locs.length) (hdem : ∀ d ∈ ds, d ≤ cap)
    (x : ℤ) (hx : x ∈ customersList (mkCVRP dep locs ds cap)) :
    demandOf (mkCVRP dep locs ds cap) x ≤ cap := by
  have h := (mem_customersList _ x).1 hx
  exact demandOf_le dep locs ds cap hlen hdem x h.1 h.2

lemma greedyAux_good (dep : ℝ × ℝ) (locs : List (ℝ × ℝ)) (ds : List ℤ)
    (cap : ℤ) (hlen : ds.length = locs.length) (hdem : ∀ d ∈ ds, d ≤ cap) :
    ∀ (fuel : ℕ) (customers : List ℤ) (routes : List (List ℤ)) (cs : List ℤ)
      (load : ℤ) (sol : List (List ℤ)),
      (interiorsJoin routes ++ cs ++ customers).Perm
        (customersList (mkCVRP dep locs ds cap)) →
      (cs = [] → load = 0) →
      load = demandSum (mkCVRP dep locs ds cap) cs →
      (cs ≠ [] → load ≤ cap) →
      (∀ r ∈ routes, GoodRoute (mkCVRP dep locs ds cap) r) →
      greedyAux (mkCVRP dep locs ds cap) fuel customers routes (0 :: cs) load
        = some sol →
      (∀ r ∈ sol, GoodRoute (mkCVRP dep locs ds cap) r)
      ∧ (interiorsJoin sol).Perm (customersList (mkCVRP dep locs ds cap)) := by
  intro fuel
  induction fuel with
  | zero => intro customers routes cs load sol _ _ _ _ _ h; cases h
  | succ fuel ih =>
    intro customers routes cs load sol hperm hcs0 hload hcap hroutes hrun
    cases customers with
    | nil =>
      simp only [greedyAux] at hrun
      by_cases hne : cs = []
      · subst hne
        rw [if_neg (by simp)] at hrun
        cases hrun
        refine ⟨hroutes, ?_⟩
        simpa using hperm
      · rw [if_pos (by
          cases cs with
          | nil => exact absurd rfl hne
          | cons a t => simp)] at hrun
        cases hrun
        constructor
        · intro r hr
          rcases List.mem_append.1 hr with hr | hr
          · exact hroutes r hr
          · rcases List.mem_singleton.1 hr with rfl
            exact ⟨cs, by simp, by rw [← hload]; exact hcap hne⟩
        · rw [show (0 :: cs) ++ [0] = 0 :: (cs ++ [0]) by simp,
            interiorsJoin_append]
          simp only [interiorsJoin, List.map_cons, List.map_nil,
            List.flatten_cons, List.flatten_nil, routeInterior_closed]
          rw [List.append_nil]
          simpa using hperm
    | cons cust rest =>
      simp only [greedyAux] at hrun
      cases hmin : minByKey
          (fun x => distanceMatrix (mkCVRP dep locs ds cap)
            ((0 :: cs).getLastD 0) x)
          ((cust :: rest).filter
            (fun x => demandOf (mkCVRP dep locs ds cap) x + load
              ≤ (mkCVRP dep locs ds cap).vehicle_capacity)) with
      | none =>
        rw [hmin] at hrun
        have hcands : (cust :: rest).filter
            (fun x => demandOf (mkCVRP dep locs ds cap) x + load
              ≤ (mkCVRP dep locs ds cap).vehicle_capacity) = [] := by
          cases hc : (cust :: rest).filter
              (fun x => demandOf (mkCVRP dep locs ds cap) x + load
                ≤ (mkCVRP dep locs ds cap).vehicle_capacity) with
          | nil => rfl
          | cons a t =>
            obtain ⟨r, hr⟩ := minByKey_ne_nil
              (fun x => distanceMatrix (mkCVRP dep locs ds cap)
                ((0 :: cs).getLastD 0) x) a t
            rw [hc, hr] at hmin
            cases hmin
        have hnofit : ∀ x ∈ cust :: rest,
            ¬ (demandOf (mkCVRP dep locs ds cap) x + load ≤ cap) := by
          intro x hx
          have := List.filter_eq_nil_iff.1 hcands x hx
          simpa using this
        have hcsne : cs ≠ [] := by
          intro hnil
          have hload0 := hcs0 hnil
          have hcustmem : cust ∈ customersList (mkCVRP dep locs ds cap) :=
            hperm.mem_iff.1 (by simp)
          have hle := demandOf_le_of_mem dep locs ds cap hlen hdem cust hcustmem
          exact hnofit cust (List.mem_cons_self _ _) (by omega)
        refine ih (cust :: rest) (routes ++ [(0 :: cs) ++ [0]]) [] 0 sol
          ?_ (fun _ => rfl) (by simp [demandSum]) (fun hn => absurd rfl hn)
          ?_ hrun
        · rw [show (0 :: cs) ++ [0] = 0 :: (cs ++ [0]) by simp,
            interiorsJoin_append]
          simp only [interiorsJoin, List.map_cons, List.map_nil,
            List.flatten_cons, List.flatten_nil, routeInterior_closed]
          rw [List.append_nil]
          simpa using hperm
        · intro r hr
          rcases List.mem_append.1 hr with hr | hr
          · exact hroutes r hr
          · rcases List.mem_singleton.1 hr with rfl
            exact ⟨cs, by simp, by rw [← hload]; exact hcap hcsne⟩
      | some next =>
        rw [hmin] at hrun
        have hnextc := (minByKey_spec _ _ _ hmin).1
        have hnextmem : next ∈ cust :: rest := (List.mem_filter.1 hnextc).1
        have hnextfit : demandOf (mkCVRP dep locs ds cap) next + load ≤ cap := by
          have := (List.mem_filter.1 hnextc).2
          simpa using this
        have hpce : (cust :: rest).Perm (next :: (cust :: rest).erase next) :=
          List.perm_cons_erase hnextmem
        refine ih ((cust :: rest).erase next) routes (cs ++ [next])
          (load + demandOf (mkCVRP dep locs ds cap) next) sol
          ?_ (fun hn => absurd hn (by simp))
          (by simp [demandSum, hload]) (fun _ => by omega) hroutes ?_
        · have h1 : interiorsJoin routes ++ (cs ++ [next])
              ++ (cust :: rest).erase next
              = interiorsJoin routes
                ++ (cs ++ (next :: (cust :: rest).erase next)) := by
            simp
          rw [h1]
          have hperm2 : (interiorsJoin routes
              ++ (cs ++ cust :: rest)).Perm
              (customersList (mkCVRP dep locs ds cap)) := by
            rw [← List.append_assoc]
            exact hperm
          refine List.Perm.trans ?_ hperm2
          refine List.Perm.append_left _ ?_
          exact List.Perm.append_left _ hpce.symm
        · exact hrun

lemma greedySolution_validates (dep : ℝ × ℝ) (locs : List (ℝ × ℝ))
    (ds : List ℤ) (cap : ℤ) (hlen : ds.length = locs.length)
    (hdem : ∀ d ∈ ds, d ≤ cap) (fuel : ℕ) (shuffle : List ℤ)
    (sol : List (List ℤ))
    (hsh : shuffle.Perm (customersList (mkCVRP dep locs ds cap)))
    (h : greedySolution (mkCVRP dep locs ds cap) fuel shuffle = some sol) :
    validate_solution (mkCVRP dep locs ds cap) sol = some true := by
  obtain ⟨hgood, hperm⟩ := greedyAux_good dep locs ds cap hlen hdem fuel
    shuffle [] [] 0 sol (by simpa using hsh) (fun _ => rfl)
    (by simp [demandSum]) (fun hn => absurd rfl hn) (by simp) h
  exact validate_of_good dep locs ds cap hlen sol hgood hperm

lemma mapM_option_mem {α β : Type} (f : α → Option β) :
    ∀ (l : List α) (res : List β), l.mapM f = some res →
      ∀ y ∈ res, ∃ s ∈ l, f s = some y := by
  intro l
  induction l with
  | nil =>
    intro res h y hy
    simp only [List.mapM_nil] at h
    cases h
    cases hy
  | cons x t ih =>
    intro res h y hy
    rw [List.mapM_cons] at h
    cases hfx : f x with
    | none => rw [hfx] at h; cases h
    | some b =>
      rw [hfx] at h
      cases hmt : t.mapM f with
      | none => rw [hmt] at h; cases h
      | some bs =>
        rw [hmt] at h
        have : res = b :: bs := by
          simpa using h.symm
        subst this
        rcases List.mem_cons.1 hy with rfl | hy
        · exact ⟨x, List.mem_cons_self _ _, hfx⟩
        · obtain ⟨s, hs, hfs⟩ := ih bs hmt y hy
          exact ⟨s, List.mem_cons_of_mem _ hs, hfs⟩

lemma greedyRun_validates (dep : ℝ × ℝ) (locs : List (ℝ × ℝ))
    (ds : List ℤ) (cap : ℤ) (hlen : ds.length = locs.length)
    (hdem : ∀ d ∈ ds, d ≤ cap) (fuel : ℕ) (shuffles : List (List ℤ))
    (sol : List (List ℤ))
    (hsh : ∀ s ∈ shuffles, s.Perm (customersList (mkCVRP dep locs ds cap)))
    (h : greedyRun (mkCVRP dep locs ds cap) fuel shuffles = some sol) :
    validate_solution (mkCVRP dep locs ds cap) sol = some true := by
  unfold greedyRun at h
  cases hm : shuffles.mapM (greedySolution (mkCVRP dep locs ds cap) fuel) with
  | none => rw [hm] at h; cases h
  | some sols =>
    rw [hm] at h
    have hsolmem := (minByKey_spec _ sols sol h).1
    obtain ⟨s, hs, hfs⟩ := mapM_option_mem _ shuffles sols hm sol hsolmem
    exact greedySolution_validates dep locs ds cap hlen hdem fuel s sol
      (hsh s hs) hfs

lemma offspringLoop_valid (c : CVRP) (P : ℕ) (pop : List (List (List ℤ))) :
    ∀ (attempts : List GAttempt) (acc res : List (List (List ℤ))),
      (∀ s ∈ acc, validate_solution c s = some true) →
      offspringLoop c P pop attempts acc = some res →
      ∀ s ∈ res, validate_solution c s = some true := by
  intro attempts
  induction attempts with
  | nil =>
    intro acc res hacc h
    simp only [offspringLoop] at h
    by_cases hP : P ≤ acc.length
    · rw [if_pos hP] at h
      cases h
      exact hacc
    · rw [if_neg hP] at h
      cases h
  | cons a rest ih =>
    intro acc res hacc h
    simp only [offspringLoop] at h
    by_cases hP : P ≤ acc.length
    · rw [if_pos hP] at h
      cases h
      exact hacc
    · rw [if_neg hP] at h
      cases hch : gaChild c pop a with
      | none => rw [hch] at h; cases h
      | some ch =>
        rw [hch] at h
        rw [show (match some ch with
          | none => none
          | some ch =>
            if validate_solution c ch = some true then
              offspringLoop c P pop rest (acc ++ [ch])
            else offspringLoop c P pop rest acc)
          = if validate_solution c ch = some true then
              offspringLoop c P pop rest (acc ++ [ch])
            else offspringLoop c P pop rest acc from rfl] at h
        by_cases hv : validate_solution c ch = some true
        · rw [if_pos hv] at h
          refine ih (acc ++ [ch]) res ?_ h
          intro s hs
          rcases List.mem_append.1 hs with hs | hs
          · exact hacc s hs
          · rcases List.mem_singleton.1 hs with rfl
            exact hv
        · rw [if_neg hv] at h
          exact ih acc res hacc h

lemma geneticGen_valid (c : CVRP) (P E : ℕ)
    (pop res : List (List (List ℤ))) (attempts : List GAttempt)
    (hpop : ∀ s ∈ pop, validate_solution c s = some true)
    (h : geneticGen c P E pop attempts = some res) :
    ∀ s ∈ res, validate_solution c s = some true := by
  unfold geneticGen at h
  have hsorted : ∀ s ∈ pop.mergeSort
      (fun a b => decide (totalCost c a ≤ totalCost c b)),
      validate_solution c s = some true := by
    intro s hs
    exact hpop s ((List.mergeSort_perm pop _).mem_iff.1 hs)
  refine offspringLoop_valid c P _ attempts _ res ?_ h
  intro s hs
  exact hsorted s (List.take_subset _ _ hs)

lemma geneticPopulation_valid (c : CVRP) (P E : ℕ) :
    ∀ (gens : List (List GAttempt)) (pop res : List (List (List ℤ))),
      (∀ s ∈ pop, validate_solution c s = some true) →
      geneticPopulation c P E gens pop = some res →
      ∀ s ∈ res, validate_solution c s = some true := by
  intro gens
  induction gens with
  | nil =>
    intro pop res hpop h
    simp only [geneticPopulation] at h
    cases h
    exact hpop
  | cons g rest ih =>
    intro pop res hpop h
    simp only [geneticPopulation] at h
    cases hg : geneticGen c P E pop g with
    | none => rw [hg] at h; cases h
    | some pop' =>
      rw [hg] at h
      exact ih pop' res (geneticGen_valid c P E pop pop' g hpop hg) h

lemma geneticRun_valid (c : CVRP) (P E : ℕ)
    (pop₀ : List (List (List ℤ))) (gens : List (List GAttempt))
    (sol : List (List ℤ))
    (hpop : ∀ s ∈ pop₀, validate_solution c s = some true)
    (h : geneticRun c P E pop₀ gens = some sol) :
    validate_solution c sol = some true := by
  unfold geneticRun at h
  cases hp : geneticPopulation c P E gens pop₀ with
  | none => rw [hp] at h; cases h
  | some finalPop =>
    rw [hp] at h
    exact geneticPopulation_valid c P E gens pop₀ finalPop hpop hp sol
      ((minByKey_spec _ finalPop sol h).1)

lemma permSplit_validates (dep : ℝ × ℝ) (locs : List (ℝ × ℝ)) (ds : List ℤ)
    (cap : ℤ) (hlen : ds.length = locs.length) (hdem : ∀ d ∈ ds, d ≤ cap)
    (sol : List (List ℤ)) (h : PermSplit (mkCVRP dep locs ds cap) sol) :
    validate_solution (mkCVRP dep locs ds cap) sol = some true := by
  obtain ⟨l, hl, rfl⟩ := h
  exact split_validates dep locs ds cap hlen hdem l hl

/-- Claim C1 (amended): on a model whose customer demands each fit the
vehicle capacity, the best solution contained in each strategy's result
passes validation — for RandomSearch over any non-empty sequence of
shuffles, for SimulatedAnnealing and TabuSearch over any shuffle and any
move oracles, for GreedySearch whenever a multi-restart run terminates,
and for GeneticSearch whenever the run completes without error starting
from an initial population that passed the initializer's validation
gate.  (Without the demand bound the claim is false: see the
counterexample, where RandomSearch returns a capacity-violating best
solution.) -/
theorem strategies_best_solution_validates (dep : ℝ × ℝ)
    (locs : List (ℝ × ℝ)) (ds : List ℤ) (cap : ℤ)
    (hlen : ds.length = locs.length) (hdem : ∀ d ∈ ds, d ≤ cap) :
    (∀ samples res,
      (∀ s ∈ samples, s.Perm (customersList (mkCVRP dep locs ds cap))) →
      randomRun (mkCVRP dep locs ds cap) samples = some res →
      validate_solution (mkCVRP dep locs ds cap) res.1 = some true)
    ∧ (∀ shuffle moves,
      shuffle.Perm (customersList (mkCVRP dep locs ds cap)) →
      validate_solution (mkCVRP dep locs ds cap)
        (saRun (mkCVRP dep locs ds cap) shuffle moves).best = some true)
    ∧ (∀ M shuffle iters,
      shuffle.Perm (customersList (mkCVRP dep locs ds cap)) →
      validate_solution (mkCVRP dep locs ds cap)
        (tabuRun (mkCVRP dep locs ds cap) M shuffle iters).best = some true)
    ∧ (∀ fuel shuffles sol,
      (∀ s ∈ shuffles, s.Perm (customersList (mkCVRP dep locs ds cap))) →
      greedyRun (mkCVRP dep locs ds cap) fuel shuffles = some sol →
      validate_solution (mkCVRP dep locs ds cap) sol = some true)
    ∧ (∀ P E pop₀ gens sol,
      (∀ s ∈ pop₀,
        validate_solution (mkCVRP dep locs ds cap) s = some true) →
      geneticRun (mkCVRP dep locs ds cap) P E pop₀ gens = some sol →
      validate_solution (mkCVRP dep locs ds cap) sol = some true) := by
  refine ⟨?_, ?_, ?_, ?_, ?_⟩
  · intro samples res hper hrun
    exact permSplit_validates dep locs ds cap hlen hdem res.1
      (randomRun_permSplit (mkCVRP dep locs ds cap) samples hper res hrun)
  · intro shuffle moves hsh
    exact permSplit_validates dep locs ds cap hlen hdem _
      (saRun_permSplit (mkCVRP dep locs ds cap) shuffle moves hsh).2
  · intro M shuffle iters hsh
    exact permSplit_validates dep locs ds cap hlen hdem _
      (tabuRun_permSplit (mkCVRP dep locs ds cap) M shuffle iters hsh).2
  · intro fuel shuffles sol hsh hrun
    exact greedyRun_validates dep locs ds cap hlen hdem fuel shuffles sol
      hsh hrun
  · intro P E pop₀ gens sol hpop hrun
    exact geneticRun_valid (mkCVRP dep locs ds cap) P E pop₀ gens sol
      hpop hrun

theorem strategies_best_solution_validates_witness :
    validate_solution (mkCVRP (0, 0) [(1, 0)] [1] 1) [[0, 1, 0]] = some true
    ∧ validate_solution (mkCVRP (0, 0) [(1, 0)] [1] 1)
        (saRun (mkCVRP (0, 0) [(1, 0)] [1] 1) [1] []).best = some true
    ∧ validate_solution (mkCVRP (0, 0) [(1, 0)] [1] 1)
        (tabuRun (mkCVRP (0, 0) [(1, 0)] [1] 1) 3 [1] []).best = some true
    ∧ validate_solution (mkCVRP (0, 0) [(1, 0)] [1] 1) [[0, 1, 0]] = some true
    ∧ validate_solution (mkCVRP (0, 0) [(1, 0)] [1] 1) [[0, 1, 0]] = some true :=
  ⟨(strategies_best_solution_validates (0, 0) [(1, 0)] [1] 1 rfl
      (by decide)).1 [[1]]
      (splitToRoutes (mkCVRP (0, 0) [(1, 0)] [1] 1) [1],
        totalCost (mkCVRP (0, 0) [(1, 0)] [1] 1)
          (splitToRoutes (mkCVRP (0, 0) [(1, 0)] [1] 1) [1]))
      (by decide) rfl,
    (strategies_best_solution_validates (0, 0) [(1, 0)] [1] 1 rfl
      (by decide)).2.1 [1] [] (by decide),
    (strategies_best_solution_validates (0, 0) [(1, 0)] [1] 1 rfl
      (by decide)).2.2.1 3 [1] [] (by decide),
    (strategies_best_solution_validates (0, 0) [(1, 0)] [1] 1 rfl
      (by decide)).2.2.2.1 2 [[1]] [[0, 1, 0]] (by decide) rfl,
    (strategies_best_solution_validates (0, 0) [(1, 0)] [1] 1 rfl
      (by decide)).2.2.2.2 1 0 [[[0, 1, 0]]] [] [[0, 1, 0]] (by decide) rfl⟩

/-- Counterexample to claim C1: with one customer of demand 3 and
capacity 2 (the shuffle of the single customer is necessarily [1]),
RandomSearch returns best solution [[0,0],[0,1,0]], which fails
validation (its route demand 3 exceeds the capacity 2). -/
theorem random_best_solution_fails_validation :
    (randomRun (mkCVRP (0, 0) [(1, 0)] [3] 2) [[1]]).map (fun r => r.1)
      = some [[0, 0], [0, 1, 0]]
    ∧ validate_solution (mkCVRP (0, 0) [(1, 0)] [3] 2) [[0, 0], [0, 1, 0]]
      = some false :=
  ⟨rfl, by decide⟩
